import Mathlib

/-!
Verification development for the Rum CLI registry toolchain
(`packages/cli/src/utils/resolver.ts`, `fetcher.ts`, `similarity.ts`).

The TypeScript sources are shallowly embedded as pure Lean functions.
Network access is modelled by explicit oracles (functions from URLs or
names to outcomes), the process-wide caches become explicit state that is
threaded in and out, and the unbounded recursion of the dependency
resolver is modelled with an explicit fuel argument (`ResolveError.outOfFuel`
marks fuel exhaustion, an artefact of the embedding that is proved
unreachable for sufficient fuel).
-/

namespace Rum

/-! ## Data model (resolver.ts / schema/registry.ts)

`RegistryItem` keeps only the fields the resolver inspects: `name` and
`registryDependencies`.  The remaining payload fields (`type`, `files`,
`dependencies`, `cssVars`, ...) are opaque to the dependency-resolution
logic and are omitted. -/

structure RegistryItem where
  name : String
  registryDependencies : List String
  deriving Repr, DecidableEq

/-- `ResolvedItem` from resolver.ts: a resolved registry item with its source. -/
structure ResolvedItem where
  name : String
  item : RegistryItem
  source : String
  deriving Repr, DecidableEq

/-- `DependencyTree` from resolver.ts.  The TS `Map` preserves insertion
order; it is embedded as an association list in insertion order. -/
structure DependencyTree where
  root : ResolvedItem
  dependencies : List (String × ResolvedItem)
  deriving Repr, DecidableEq

/-- Oracle environment for the resolver.
`fetchItemAt url` models the outcome of `fetchItem(url)` (resolveByUrl's
fetch); `resolveNameO name` models the outcome of `resolveByName(name, config)`
(registry search): `some r` when it returns a resolved item, `none` when it
throws (`ComponentNotFoundError` or a fetch error). -/
structure ResolverEnv where
  fetchItemAt : String → Option RegistryItem
  resolveNameO : String → Option ResolvedItem

/-- Modelled from the spec: `isUrlDependency` lives in `url-parser.ts`,
which is not among the sources; §4.1 of the spec says references are
classified "purely by string shape (scheme prefix)".  A reference is a
direct URL iff it carries an http(s) scheme prefix.  The prefix test is
performed on the character sequence (structurally, so it computes). -/
def isUrlDependency (ref : String) : Bool :=
  "http://".data.isPrefixOf ref.data || "https://".data.isPrefixOf ref.data

/-- `resolveByUrl` from resolver.ts: fetch the item at the URL; the resolved
name is the `name` field of the fetched payload, the source is the URL. -/
def resolveByUrl (env : ResolverEnv) (url : String) : Option ResolvedItem :=
  (env.fetchItemAt url).map fun it => ⟨it.name, it, url⟩

/-- The per-reference resolution step of `resolveDependencies`
(resolver.ts lines 310-315): URL references go through `resolveByUrl`,
everything else through `resolveByName` (modelled by the oracle). -/
def resolveRef (env : ResolverEnv) (componentName : String) : Option ResolvedItem :=
  if isUrlDependency componentName then resolveByUrl env componentName
  else env.resolveNameO componentName

/-- `ResolutionState` from resolver.ts.  The TS `Map`/`Set` become
insertion-ordered lists.  `trace` is observability instrumentation with no
counterpart in the state object: it records, in order, every reference for
which the fetch/locate work (`resolveByUrl` / `resolveByName`) was actually
executed, so that "the underlying fetch for N executes only once" becomes a
statement about `trace`. -/
structure ResolutionState where
  resolved : List (String × ResolvedItem)
  visiting : List String
  path : List String
  trace : List String
  deriving Repr, DecidableEq

/-- The errors `resolveTree` can raise, plus the fuel marker of the
embedding.  `circular` is `CircularDependencyError{cycle}`, `notFound` is
`ComponentNotFoundError` (or a fetch error propagating out of the
resolution of that reference), `rootUnresolved` is the
`Failed to resolve root component` error of `resolveTree`. -/
inductive ResolveError where
  | circular (cycle : List String)
  | notFound (componentName : String)
  | rootUnresolved (componentName : String)
  | outOfFuel
  deriving Repr, DecidableEq

/-- `resolveDependencies` from resolver.ts (lines 287-330): DFS with cycle
detection.  Mirrors the source step for step: (1) if the name is in
`visiting`, throw `CircularDependencyError` with the slice of `path` from
the name's first occurrence plus the name again; (2) if already resolved,
return (dedup); (3) mark visiting, push the path, resolve the reference
(URL or name), recurse into its `registryDependencies` in order, then add
to `resolved`; the `finally` block pops `visiting`/`path`.  On a thrown
error the TS state is abandoned by `resolveTree`, so the embedding lets
`Except.error` discard it. -/
def resolveStep (env : ResolverEnv)
    (rec : String → ResolutionState → Except ResolveError ResolutionState)
    (componentName : String) (st : ResolutionState) :
    Except ResolveError ResolutionState :=
  if componentName ∈ st.visiting then
    .error (.circular (st.path.drop (st.path.indexOf componentName) ++ [componentName]))
  else if (st.resolved.lookup componentName).isSome then
    .ok st
  else
    match resolveRef env componentName with
    | none => .error (.notFound componentName)
    | some r =>
      match r.item.registryDependencies.foldlM (fun s d => rec d s)
          { resolved := st.resolved
            visiting := st.visiting ++ [componentName]
            path := st.path ++ [componentName]
            trace := st.trace ++ [componentName] } with
      | .error e => .error e
      | .ok st2 =>
        .ok { resolved := st2.resolved ++ [(componentName, r)]
              visiting := st2.visiting.erase componentName
              path := st2.path.dropLast
              trace := st2.trace }

/-- Ties the recursive knot of `resolveStep` through the fuel argument. -/
def resolveDependencies (env : ResolverEnv) :
    Nat → String → ResolutionState → Except ResolveError ResolutionState
  | 0, _, _ => .error .outOfFuel
  | fuel + 1, componentName, st =>
    resolveStep env (resolveDependencies env fuel) componentName st

/-- The empty per-call state `resolveTree` starts from. -/
def initState : ResolutionState := ⟨[], [], [], []⟩

/-- `resolveTree` from resolver.ts (lines 339-367): run the DFS from the
root reference, look the root up in `resolved`, and return it together
with every other resolved entry (insertion order preserved, root key
excluded). -/
def resolveTree (env : ResolverEnv) (fuel : Nat) (componentName : String) :
    Except ResolveError DependencyTree :=
  match resolveDependencies env fuel componentName initState with
  | .error e => .error e
  | .ok st =>
    match st.resolved.lookup componentName with
    | none => .error (.rootUnresolved componentName)
    | some root => .ok ⟨root, st.resolved.filter (fun p => p.1 != componentName)⟩

/-! ## The reference graph induced by an environment -/

/-- The dependency references of `n`'s resolved item (empty when `n` does
not resolve, matching the spec's "reachable registryDependencies graph"
whose edges originate from resolvable references only). -/
def depsOf (env : ResolverEnv) (n : String) : List String :=
  match resolveRef env n with
  | some r => r.item.registryDependencies
  | none => []

/-- `Edge env n m`: the item `n` resolves to lists `m` among its
`registryDependencies`. -/
def Edge (env : ResolverEnv) (n m : String) : Prop := m ∈ depsOf env n

instance (env : ResolverEnv) (n m : String) : Decidable (Edge env n m) :=
  inferInstanceAs (Decidable (m ∈ depsOf env n))

/-- `m` is transitively reachable from `n` (in zero or more steps). -/
def Reaches (env : ResolverEnv) (n m : String) : Prop :=
  Relation.ReflTransGen (Edge env) n m

/-- Keys of an association list, in order. -/
def keys {α : Type} (l : List (String × α)) : List String := l.map Prod.fst

/-! ## Association list helpers -/

theorem keys_append {α : Type} (l1 l2 : List (String × α)) :
    keys (l1 ++ l2) = keys l1 ++ keys l2 := by
  simp [keys]

theorem mem_of_mem_keys {α : Type} {a : String} {l : List (String × α)}
    (h : a ∈ keys l) : ∃ b, (a, b) ∈ l := by
  rcases List.mem_map.1 h with ⟨p, hp, rfl⟩
  exact ⟨p.2, hp⟩

theorem mem_keys_of_mem {α : Type} {a : String} {b : α} {l : List (String × α)}
    (h : (a, b) ∈ l) : a ∈ keys l :=
  List.mem_map.2 ⟨(a, b), h, rfl⟩

theorem lookup_isSome_iff {α : Type} {a : String} {l : List (String × α)} :
    (l.lookup a).isSome ↔ a ∈ keys l := by
  induction l with
  | nil => simp [List.lookup, keys]
  | cons hd tl ih =>
    obtain ⟨k, v⟩ := hd
    rw [List.lookup_cons]
    cases hbe : a == k
    · have hne : a ≠ k := by simpa [beq_iff_eq] using hbe
      simpa [keys, hne] using ih
    · have heq : a = k := by simpa [beq_iff_eq] using hbe
      simp [keys, heq]

theorem lookup_eq_none_iff {α : Type} {a : String} {l : List (String × α)} :
    l.lookup a = none ↔ a ∉ keys l := by
  rw [← lookup_isSome_iff, Option.isSome_iff_ne_none]
  tauto

theorem lookup_mem {α : Type} {a : String} {b : α} {l : List (String × α)}
    (h : l.lookup a = some b) : (a, b) ∈ l := by
  induction l with
  | nil => simp [List.lookup] at h
  | cons hd tl ih =>
    obtain ⟨k, v⟩ := hd
    rw [List.lookup_cons] at h
    cases hbe : a == k
    · rw [hbe] at h
      exact List.mem_cons_of_mem _ (ih h)
    · rw [hbe] at h
      have heq : a = k := by simpa [beq_iff_eq] using hbe
      simp only [Option.some.injEq] at h
      subst heq h
      exact List.mem_cons_self _ _

/-! ## Controlled unfolding for the graph notions

`resolveRef` bottoms out in `String.startsWith`, which the elaborator must
not be asked to reduce on variables; these equation lemmas expose exactly
the reasoning steps the proofs need. -/

theorem depsOf_eq_some {env : ResolverEnv} {n : String} {r : ResolvedItem}
    (h : resolveRef env n = some r) : depsOf env n = r.item.registryDependencies := by
  unfold depsOf
  rw [h]

theorem depsOf_eq_none {env : ResolverEnv} {n : String}
    (h : resolveRef env n = none) : depsOf env n = [] := by
  unfold depsOf
  rw [h]

theorem edge_iff {env : ResolverEnv} {n m : String} :
    Edge env n m ↔ m ∈ depsOf env n := Iff.rfl

/-! ## Invariants of the DFS state -/

/-- `resolved` is topologically sorted: every entry resolves via
`resolveRef` to the stored item, and each of its registry dependencies
already occurs among the keys of the strictly earlier entries.  This is
the formal shape of the "post-order insertion" discipline: a name enters
`resolved` only after all of its `registryDependencies`. -/
def TopoSorted (env : ResolverEnv) (l : List (String × ResolvedItem)) : Prop :=
  ∀ l1 k r l2, l = l1 ++ (k, r) :: l2 →
    resolveRef env k = some r ∧ ∀ d ∈ r.item.registryDependencies, d ∈ keys l1

theorem topoSorted_nil (env : ResolverEnv) : TopoSorted env [] := by
  intro l1 k r l2 h
  exact absurd h (by simp)

theorem TopoSorted.append_singleton {env : ResolverEnv}
    {l : List (String × ResolvedItem)} {k : String} {r : ResolvedItem}
    (hl : TopoSorted env l) (hres : resolveRef env k = some r)
    (hdeps : ∀ d ∈ r.item.registryDependencies, d ∈ keys l) :
    TopoSorted env (l ++ [(k, r)]) := by
  intro l1 k' r' l2 h
  rcases List.eq_nil_or_concat l2 with rfl | ⟨l2', a, rfl⟩
  · have h2 : l ++ [(k, r)] = l1 ++ [(k', r')] := h
    have := List.append_inj' h2 rfl
    obtain ⟨rfl, h3⟩ := this
    simp only [List.cons.injEq, Prod.mk.injEq] at h3
    obtain ⟨⟨rfl, rfl⟩, -⟩ := h3
    exact ⟨hres, hdeps⟩
  · have h2 : l ++ [(k, r)] = (l1 ++ (k', r') :: l2') ++ [a] := by
      rw [h]; simp
    have := List.append_inj' h2 rfl
    obtain ⟨h3, -⟩ := this
    exact hl l1 k' r' l2' h3

theorem TopoSorted.of_mem {env : ResolverEnv}
    {l : List (String × ResolvedItem)} {k : String} {r : ResolvedItem}
    (hl : TopoSorted env l) (hm : (k, r) ∈ l) :
    resolveRef env k = some r ∧ ∀ d ∈ r.item.registryDependencies, d ∈ keys l := by
  obtain ⟨s, t, rfl⟩ := List.append_of_mem hm
  obtain ⟨h1, h2⟩ := hl s k r t rfl
  refine ⟨h1, fun d hd => ?_⟩
  have := h2 d hd
  rw [keys_append]
  exact List.mem_append_left _ this

theorem TopoSorted.edge_indexOf_lt {env : ResolverEnv}
    {l : List (String × ResolvedItem)} (hl : TopoSorted env l)
    (hnd : (keys l).Nodup) {n m : String} (hn : n ∈ keys l) (he : Edge env n m) :
    m ∈ keys l ∧ (keys l).indexOf m < (keys l).indexOf n := by
  obtain ⟨r, hr⟩ := mem_of_mem_keys hn
  obtain ⟨s, t, rfl⟩ := List.append_of_mem hr
  obtain ⟨h1, h2⟩ := hl s n r t rfl
  have hm : m ∈ keys s := by
    have hdeps : depsOf env n = r.item.registryDependencies := depsOf_eq_some h1
    exact h2 m (by rw [edge_iff, hdeps] at he; exact he)
  have hkeys : keys (s ++ (n, r) :: t) = keys s ++ n :: keys t := by
    simp [keys]
  rw [hkeys] at hnd ⊢
  have hn_not : n ∉ keys s := by
    intro hcon
    rw [List.nodup_append] at hnd
    exact hnd.2.2 hcon (List.mem_cons_self _ _)
  constructor
  · exact List.mem_append_left _ hm
  · rw [List.indexOf_append_of_mem hm, List.indexOf_append_of_not_mem hn_not,
      List.indexOf_cons_self]
    have := List.indexOf_lt_length.2 hm
    omega

theorem TopoSorted.no_cycle {env : ResolverEnv}
    {l : List (String × ResolvedItem)} (hl : TopoSorted env l)
    (hnd : (keys l).Nodup) {n : String} (hn : n ∈ keys l) :
    ¬ Relation.TransGen (Edge env) n n := by
  intro hcyc
  have key : ∀ a b : String, Relation.TransGen (Edge env) a b → a ∈ keys l →
      b ∈ keys l ∧ (keys l).indexOf b < (keys l).indexOf a := by
    intro a b h
    induction h with
    | single h1 => intro ha; exact hl.edge_indexOf_lt hnd ha h1
    | tail _ h2 ih =>
      intro ha
      obtain ⟨hb, hlt⟩ := ih ha
      obtain ⟨hc, hlt2⟩ := hl.edge_indexOf_lt hnd hb h2
      exact ⟨hc, lt_trans hlt2 hlt⟩
  obtain ⟨-, h⟩ := key n n hcyc hn
  omega

/-- The invariants maintained by `resolveDependencies` across recursive
calls, tying the mutable state to the reference graph. -/
structure GoodState (env : ResolverEnv) (root : String) (st : ResolutionState) : Prop where
  sync : st.visiting = st.path
  nodupPath : st.path.Nodup
  chainPath : List.Chain' (Edge env) st.path
  pathReach : ∀ p ∈ st.path, Reaches env root p
  topo : TopoSorted env st.resolved
  nodupKeys : (keys st.resolved).Nodup
  resolvedReach : ∀ k ∈ keys st.resolved, Reaches env root k
  disjointRV : ∀ k ∈ keys st.resolved, k ∉ st.visiting
  traceNodup : st.trace.Nodup
  traceCover : ∀ m ∈ st.trace, m ∈ keys st.resolved ∨ m ∈ st.visiting
  resolvedTraced : ∀ k ∈ keys st.resolved, k ∈ st.trace

theorem goodState_init (env : ResolverEnv) (root : String) :
    GoodState env root initState := by
  constructor <;> simp [initState, topoSorted_nil, keys]

/-- How a recursive call relates to the state it is made in: either it is
the top-level call (empty path, resolving the root), or the resolved name
is a registry dependency of the path's last entry. -/
def ExtendOK (env : ResolverEnv) (root : String) (st : ResolutionState) (name : String) : Prop :=
  (st.path = [] ∧ name = root) ∨ (∃ p, st.path.getLast? = some p ∧ Edge env p name)

theorem ExtendOK.reaches {env : ResolverEnv} {root : String}
    {st : ResolutionState} {name : String} (hg : GoodState env root st)
    (h : ExtendOK env root st name) : Reaches env root name := by
  rcases h with ⟨-, rfl⟩ | ⟨p, hp, he⟩
  · exact Relation.ReflTransGen.refl
  · have hmem : p ∈ st.path := by
      obtain ⟨ys, hys⟩ := List.getLast?_eq_some_iff.1 hp
      rw [hys]
      exact List.mem_append_right _ (List.mem_cons_self _ _)
    exact Relation.ReflTransGen.tail (hg.pathReach p hmem) he

/-- What it means for a `CircularDependencyError` payload to describe an
actual cycle of the reachable graph: it starts and ends with the same
repeated name, every consecutive pair is a `registryDependencies` edge,
it has at least two entries, and every listed name is reachable from the
root.  In particular the listed names all lie on the cycle itself. -/
def GenuineCycle (env : ResolverEnv) (root : String) (c : List String) : Prop :=
  ∃ n, c.head? = some n ∧ c.getLast? = some n ∧ List.Chain' (Edge env) c ∧
    2 ≤ c.length ∧ ∀ m ∈ c, Reaches env root m

/-- Contract of a successful `resolveDependencies` call. -/
structure OkSpec (env : ResolverEnv) (root : String)
    (stIn stOut : ResolutionState) (name : String) : Prop where
  good : GoodState env root stOut
  path_eq : stOut.path = stIn.path
  visiting_eq : stOut.visiting = stIn.visiting
  resolved_ext : ∃ l, stOut.resolved = stIn.resolved ++ l
  trace_ext : ∃ l, stOut.trace = stIn.trace ++ l
  name_mem : name ∈ keys stOut.resolved

/-- The errors a run can report, as a predicate (kept match-free so the
elaborator never tries to evaluate the run it is applied to). -/
structure ErrorSpec (env : ResolverEnv) (root : String) (e : ResolveError) : Prop where
  circular_case : ∀ c, e = .circular c → GenuineCycle env root c
  notFound_case : ∀ m, e = .notFound m → resolveRef env m = none ∧ Reaches env root m
  no_rootUnresolved : ∀ m, e ≠ .rootUnresolved m
  no_outOfFuel : e ≠ .outOfFuel

/-- Contract of a `resolveDependencies` call, by outcome (match-free). -/
structure ResultSpec (env : ResolverEnv) (root : String) (stIn : ResolutionState)
    (name : String) (res : Except ResolveError ResolutionState) : Prop where
  ok_case : ∀ out, res = .ok out → OkSpec env root stIn out name
  error_case : ∀ e, res = .error e → ErrorSpec env root e

/-- Contract of a successful run over a dependency list. -/
structure ListOkSpec (env : ResolverEnv) (root : String)
    (stIn stOut : ResolutionState) (ds : List String) : Prop where
  good : GoodState env root stOut
  path_eq : stOut.path = stIn.path
  visiting_eq : stOut.visiting = stIn.visiting
  resolved_ext : ∃ l, stOut.resolved = stIn.resolved ++ l
  trace_ext : ∃ l, stOut.trace = stIn.trace ++ l
  deps_mem : ∀ d ∈ ds, d ∈ keys stOut.resolved

/-- Contract of a run over a dependency list, by outcome (match-free). -/
structure ListResultSpec (env : ResolverEnv) (root : String) (stIn : ResolutionState)
    (ds : List String) (res : Except ResolveError ResolutionState) : Prop where
  ok_case : ∀ out, res = .ok out → ListOkSpec env root stIn out ds
  error_case : ∀ e, res = .error e → ErrorSpec env root e

theorem resultSpec_ok {env : ResolverEnv} {root : String}
    {stIn stOut : ResolutionState} {name : String}
    (h : OkSpec env root stIn stOut name) :
    ResultSpec env root stIn name (.ok stOut) := by
  refine ⟨fun out hout => ?_, fun e he => ?_⟩
  · injection hout with h2
    subst h2
    exact h
  · exact absurd he (by simp)

theorem resultSpec_error {env : ResolverEnv} {root : String}
    {stIn : ResolutionState} {name : String} {e : ResolveError}
    (h : ErrorSpec env root e) : ResultSpec env root stIn name (.error e) := by
  refine ⟨fun out hout => absurd hout (by simp), fun e' he => ?_⟩
  injection he with h2
  subst h2
  exact h

theorem ResultSpec.okE {env : ResolverEnv} {root : String}
    {stIn stOut : ResolutionState} {name : String}
    (h : ResultSpec env root stIn name (.ok stOut)) :
    OkSpec env root stIn stOut name := h.ok_case stOut rfl

theorem ResultSpec.errE {env : ResolverEnv} {root : String}
    {stIn : ResolutionState} {name : String} {e : ResolveError}
    (h : ResultSpec env root stIn name (.error e)) :
    ErrorSpec env root e := h.error_case e rfl

theorem listResultSpec_ok {env : ResolverEnv} {root : String}
    {stIn stOut : ResolutionState} {ds : List String}
    (h : ListOkSpec env root stIn stOut ds) :
    ListResultSpec env root stIn ds (.ok stOut) := by
  refine ⟨fun out hout => ?_, fun e he => ?_⟩
  · injection hout with h2
    subst h2
    exact h
  · exact absurd he (by simp)

theorem listResultSpec_error {env : ResolverEnv} {root : String}
    {stIn : ResolutionState} {ds : List String} {e : ResolveError}
    (h : ErrorSpec env root e) : ListResultSpec env root stIn ds (.error e) := by
  refine ⟨fun out hout => absurd hout (by simp), fun e' he => ?_⟩
  injection he with h2
  subst h2
  exact h

theorem ListResultSpec.okL {env : ResolverEnv} {root : String}
    {stIn stOut : ResolutionState} {ds : List String}
    (h : ListResultSpec env root stIn ds (.ok stOut)) :
    ListOkSpec env root stIn stOut ds := h.ok_case stOut rfl

theorem ListResultSpec.errL {env : ResolverEnv} {root : String}
    {stIn : ResolutionState} {ds : List String} {e : ResolveError}
    (h : ListResultSpec env root stIn ds (.error e)) :
    ErrorSpec env root e := h.error_case e rfl

theorem errorSpec_circular {env : ResolverEnv} {root : String} {c : List String}
    (h : GenuineCycle env root c) : ErrorSpec env root (.circular c) := by
  refine ⟨fun c' hc => ?_, fun m hm => by simp at hm, fun m hm => by simp at hm, by simp⟩
  injection hc with h2
  subst h2
  exact h

theorem errorSpec_notFound {env : ResolverEnv} {root : String} {m : String}
    (h1 : resolveRef env m = none) (h2 : Reaches env root m) :
    ErrorSpec env root (.notFound m) := by
  refine ⟨fun c hc => by simp at hc, fun m' hm => ?_, fun m' hm => by simp at hm, by simp⟩
  injection hm with h3
  subst h3
  exact ⟨h1, h2⟩

/-- `L` lists a superset of the names reachable through the dependency
graph: it is closed under `registryDependencies` edges.  This captures
the finiteness of the reachable reference graph (a registry is a finite
document). -/
def Closed (env : ResolverEnv) (L : List String) : Prop :=
  ∀ n ∈ L, ∀ m ∈ depsOf env n, m ∈ L

theorem mem_of_reaches {env : ResolverEnv} {L : List String} {root n : String}
    (hC : Closed env L) (hroot : root ∈ L) (h : Reaches env root n) : n ∈ L := by
  induction h with
  | refl => exact hroot
  | tail _ he ih => exact hC _ ih _ he

/-- The cycle payload thrown when `name` is re-encountered while in
`visiting` is a genuine cycle of the reachable graph. -/
theorem genuineCycle_of_revisit {env : ResolverEnv} {root : String}
    {st : ResolutionState} {name : String}
    (hg : GoodState env root st) (hv : name ∈ st.visiting)
    (hext : ExtendOK env root st name) :
    GenuineCycle env root (st.path.drop (st.path.indexOf name) ++ [name]) := by
  have hpmem : name ∈ st.path := by rw [← hg.sync]; exact hv
  have hne : st.path ≠ [] := by
    intro h
    rw [h] at hpmem
    simp at hpmem
  have hedge : ∃ p, st.path.getLast? = some p ∧ Edge env p name := by
    rcases hext with ⟨hnil, -⟩ | h
    · exact absurd hnil hne
    · exact h
  obtain ⟨p, hlast, hpe⟩ := hedge
  have hilt : st.path.indexOf name < st.path.length := List.indexOf_lt_length.2 hpmem
  have hdropeq : st.path.drop (st.path.indexOf name) =
      name :: st.path.drop (st.path.indexOf name + 1) := by
    rw [List.drop_eq_getElem_cons hilt]
    congr 1
    exact List.getElem_indexOf hilt
  have hdropne : st.path.drop (st.path.indexOf name) ≠ [] := by
    rw [hdropeq]
    simp
  refine ⟨name, ?_, ?_, ?_, ?_, ?_⟩
  · rw [hdropeq]
    rfl
  · exact List.getLast?_concat _
  · rw [List.chain'_append]
    refine ⟨hg.chainPath.drop _, List.chain'_singleton _, ?_⟩
    intro x hx y hy
    simp only [List.head?_cons, Option.mem_def, Option.some.injEq] at hy
    subst hy
    have hlast2 : (st.path.drop (st.path.indexOf name)).getLast? = st.path.getLast? := by
      conv_rhs => rw [← List.take_append_drop (st.path.indexOf name) st.path]
      rw [List.getLast?_append_of_ne_nil _ hdropne]
    rw [hlast2, hlast] at hx
    simp only [Option.mem_def, Option.some.injEq] at hx
    subst hx
    exact hpe
  · rw [List.length_append, hdropeq]
    simp
  · intro m hm
    rcases List.mem_append.1 hm with hm | hm
    · exact hg.pathReach m (List.mem_of_mem_drop hm)
    · simp only [List.mem_singleton] at hm
      subst hm
      exact hext.reaches hg

theorem except_bind_ok {α β γ : Type} (a : α) (k : α → Except γ β) :
    (Except.ok a >>= k) = k a := rfl

theorem except_bind_error {α β γ : Type} (e : γ) (k : α → Except γ β) :
    ((Except.error e : Except γ α) >>= k) = Except.error e := rfl

/-- `resolveDependencies` meets its contract at this fuel level. -/
def PDep (env : ResolverEnv) (root : String) (L : List String) (fuel : Nat) : Prop :=
  ∀ name st, GoodState env root st → ExtendOK env root st name →
    L.length + 1 ≤ st.path.length + fuel →
    ResultSpec env root st name (resolveDependencies env fuel name st)

/-- Folding `resolveDependencies` over a dependency list meets the list
contract, assuming the contract at the same fuel level for single calls. -/
theorem plist_step {env : ResolverEnv} {root : String} {L : List String} {fuel : Nat}
    (ih : PDep env root L fuel) :
    ∀ (ds : List String) (st : ResolutionState) (p : String),
      GoodState env root st → st.path.getLast? = some p →
      (∀ d ∈ ds, Edge env p d) →
      L.length + 1 ≤ st.path.length + fuel →
      ListResultSpec env root st ds
        (ds.foldlM (fun s d => resolveDependencies env fuel d s) st) := by
  intro ds
  induction ds with
  | nil =>
    intro st p hg _ _ _
    rw [List.foldlM_nil]
    exact listResultSpec_ok ⟨hg, rfl, rfl, ⟨[], by simp⟩, ⟨[], by simp⟩, by simp⟩
  | cons d ds ihds =>
    intro st p hg hlast hds hfuel
    rw [List.foldlM_cons]
    have hd_edge : Edge env p d := hds d (List.mem_cons_self _ _)
    have hspec := ih d st hg (Or.inr ⟨p, hlast, hd_edge⟩) hfuel
    cases hcall : resolveDependencies env fuel d st with
    | error e =>
      rw [hcall] at hspec
      rw [except_bind_error]
      exact listResultSpec_error hspec.errE
    | ok st' =>
      rw [hcall] at hspec
      rw [except_bind_ok]
      have hok : OkSpec env root st st' d := hspec.okE
      have hlast' : st'.path.getLast? = some p := by rw [hok.path_eq]; exact hlast
      have hds' : ∀ x ∈ ds, Edge env p x := fun x hx => hds x (List.mem_cons_of_mem _ hx)
      have hfuel' : L.length + 1 ≤ st'.path.length + fuel := by
        rw [hok.path_eq]; exact hfuel
      have hrest := ihds st' p hok.good hlast' hds' hfuel'
      cases hfold : ds.foldlM (fun s x => resolveDependencies env fuel x s) st' with
      | error e =>
        rw [hfold] at hrest
        exact listResultSpec_error hrest.errL
      | ok out =>
        rw [hfold] at hrest
        have hlok : ListOkSpec env root st' out ds := hrest.okL
        obtain ⟨l1, hl1⟩ := hok.resolved_ext
        obtain ⟨l2, hl2⟩ := hlok.resolved_ext
        obtain ⟨t1, ht1⟩ := hok.trace_ext
        obtain ⟨t2, ht2⟩ := hlok.trace_ext
        refine listResultSpec_ok ⟨hlok.good, hlok.path_eq.trans hok.path_eq,
          hlok.visiting_eq.trans hok.visiting_eq,
          ⟨l1 ++ l2, by rw [hl2, hl1, List.append_assoc]⟩,
          ⟨t1 ++ t2, by rw [ht2, ht1, List.append_assoc]⟩, ?_⟩
        intro x hx
        rcases List.mem_cons.1 hx with rfl | hx
        · have := hok.name_mem
          rw [hl2, keys_append]
          rw [hl1] at this ⊢
          exact List.mem_append_left _ this
        · exact hlok.deps_mem x hx

theorem pdep_zero {env : ResolverEnv} {root : String} {L : List String}
    (hC : Closed env L) (hroot : root ∈ L) : PDep env root L 0 := by
  intro name st hg _ hfuel
  exfalso
  have hsub : st.path ⊆ L := fun p hp => mem_of_reaches hC hroot (hg.pathReach p hp)
  have := (hg.nodupPath.subperm hsub).length_le
  omega

theorem pdep_succ {env : ResolverEnv} {root : String} {L : List String} {fuel : Nat}
    (ih : PDep env root L fuel) : PDep env root L (fuel + 1) := by
  intro name st hg hext hfuel
  rw [resolveDependencies]
  unfold resolveStep
  by_cases hv : name ∈ st.visiting
  · rw [if_pos hv]
    exact resultSpec_error (errorSpec_circular (genuineCycle_of_revisit hg hv hext))
  · rw [if_neg hv]
    by_cases hr : (st.resolved.lookup name).isSome = true
    · rw [if_pos hr]
      exact resultSpec_ok ⟨hg, rfl, rfl, ⟨[], by simp⟩, ⟨[], by simp⟩, lookup_isSome_iff.1 hr⟩
    · rw [if_neg hr]
      cases hres : resolveRef env name with
      | none => exact resultSpec_error (errorSpec_notFound hres (hext.reaches hg))
      | some r =>
        dsimp only
        have hnotpath : name ∉ st.path := by rw [← hg.sync]; exact hv
        have hnotkeys : name ∉ keys st.resolved := fun hk => hr (lookup_isSome_iff.2 hk)
        have hnottrace : name ∉ st.trace := by
          intro ht
          rcases hg.traceCover name ht with h | h
          · exact hnotkeys h
          · exact hv h
        have hreach : Reaches env root name := hext.reaches hg
        set st1 : ResolutionState :=
          { resolved := st.resolved
            visiting := st.visiting ++ [name]
            path := st.path ++ [name]
            trace := st.trace ++ [name] } with hst1
        have hg1 : GoodState env root st1 := by
          refine ⟨?_, ?_, ?_, ?_, ?_, ?_, ?_, ?_, ?_, ?_, ?_⟩
          · show st.visiting ++ [name] = st.path ++ [name]
            rw [hg.sync]
          · show (st.path ++ [name]).Nodup
            simp [List.nodup_append, hg.nodupPath, hnotpath]
          · show List.Chain' (Edge env) (st.path ++ [name])
            rw [List.chain'_append]
            refine ⟨hg.chainPath, List.chain'_singleton _, ?_⟩
            intro x hx y hy
            simp only [List.head?_cons, Option.mem_def, Option.some.injEq] at hy
            subst hy
            rcases hext with ⟨hnil, -⟩ | ⟨p, hp, he⟩
            · rw [hnil] at hx
              simp at hx
            · rw [hp] at hx
              simp only [Option.mem_def, Option.some.injEq] at hx
              subst hx
              exact he
          · show ∀ q ∈ st.path ++ [name], Reaches env root q
            intro q hq
            rcases List.mem_append.1 hq with hq | hq
            · exact hg.pathReach q hq
            · simp only [List.mem_singleton] at hq
              subst hq
              exact hreach
          · exact hg.topo
          · exact hg.nodupKeys
          · exact hg.resolvedReach
          · show ∀ k ∈ keys st.resolved, k ∉ st.visiting ++ [name]
            intro k hk hmem
            rcases List.mem_append.1 hmem with h | h
            · exact hg.disjointRV k hk h
            · simp only [List.mem_singleton] at h
              subst h
              exact hnotkeys hk
          · show (st.trace ++ [name]).Nodup
            simp [List.nodup_append, hg.traceNodup, hnottrace]
          · show ∀ m ∈ st.trace ++ [name], m ∈ keys st.resolved ∨ m ∈ st.visiting ++ [name]
            intro m hm
            rcases List.mem_append.1 hm with h | h
            · rcases hg.traceCover m h with h2 | h2
              · exact Or.inl h2
              · exact Or.inr (List.mem_append_left _ h2)
            · exact Or.inr (List.mem_append_right _ h)
          · show ∀ k ∈ keys st.resolved, k ∈ st.trace ++ [name]
            intro k hk
            exact List.mem_append_left _ (hg.resolvedTraced k hk)
        have hlast1 : st1.path.getLast? = some name := by
          show (st.path ++ [name]).getLast? = some name
          exact List.getLast?_concat _
        have hds1 : ∀ d ∈ r.item.registryDependencies, Edge env name d := by
          intro d hd
          rw [edge_iff, depsOf_eq_some hres]
          exact hd
        have hfuel1 : L.length + 1 ≤ st1.path.length + fuel := by
          show L.length + 1 ≤ (st.path ++ [name]).length + fuel
          rw [List.length_append]
          simp only [List.length_singleton]
          omega
        have hlist := plist_step ih r.item.registryDependencies st1 name hg1 hlast1 hds1 hfuel1
        cases hfold : List.foldlM (fun s d => resolveDependencies env fuel d s) st1
            r.item.registryDependencies with
        | error e =>
          rw [hfold] at hlist
          exact resultSpec_error hlist.errL
        | ok st2 =>
          rw [hfold] at hlist
          have hlok : ListOkSpec env root st1 st2 r.item.registryDependencies := hlist.okL
          have hpath2 : st2.path = st.path ++ [name] := hlok.path_eq
          have hvis2 : st2.visiting = st.visiting ++ [name] := hlok.visiting_eq
          obtain ⟨l2, hres2⟩ := hlok.resolved_ext
          obtain ⟨t2, htr2⟩ := hlok.trace_ext
          have hname_in_vis2 : name ∈ st2.visiting := by
            rw [hvis2]
            exact List.mem_append_right _ (List.mem_cons_self _ _)
          have hname_notin_keys2 : name ∉ keys st2.resolved := fun hk =>
            hlok.good.disjointRV name hk hname_in_vis2
          have hodrop : st2.path.dropLast = st.path := by
            rw [hpath2]
            exact List.dropLast_concat
          have hoerase : st2.visiting.erase name = st.visiting := by
            rw [hvis2, List.erase_append_right _ hv, List.erase_cons_head, List.append_nil]
          have htopo2 : TopoSorted env (st2.resolved ++ [(name, r)]) :=
            hlok.good.topo.append_singleton hres hlok.deps_mem
          have hkeys_out : keys (st2.resolved ++ [(name, r)]) = keys st2.resolved ++ [name] := by
            simp [keys]
          have hname_tr2 : name ∈ st2.trace := by
            rw [htr2]
            show name ∈ st.trace ++ [name] ++ t2
            exact List.mem_append_left _ (List.mem_append_right _ (List.mem_cons_self _ _))
          refine resultSpec_ok ⟨⟨?_, ?_, ?_, ?_, ?_, ?_, ?_, ?_, ?_, ?_, ?_⟩, ?_, ?_, ?_, ?_, ?_⟩
          · show st2.visiting.erase name = st2.path.dropLast
            rw [hoerase, hodrop, hg.sync]
          · show st2.path.dropLast.Nodup
            rw [hodrop]
            exact hg.nodupPath
          · show List.Chain' (Edge env) st2.path.dropLast
            rw [hodrop]
            exact hg.chainPath
          · show ∀ q ∈ st2.path.dropLast, Reaches env root q
            rw [hodrop]
            exact hg.pathReach
          · exact htopo2
          · show (keys (st2.resolved ++ [(name, r)])).Nodup
            rw [hkeys_out]
            simp [List.nodup_append, hlok.good.nodupKeys, hname_notin_keys2]
          · show ∀ k ∈ keys (st2.resolved ++ [(name, r)]), Reaches env root k
            intro k hk
            rw [hkeys_out] at hk
            rcases List.mem_append.1 hk with h | h
            · exact hlok.good.resolvedReach k h
            · simp only [List.mem_singleton] at h
              subst h
              exact hreach
          · show ∀ k ∈ keys (st2.resolved ++ [(name, r)]), k ∉ st2.visiting.erase name
            intro k hk hkv
            rw [hoerase] at hkv
            rw [hkeys_out] at hk
            rcases List.mem_append.1 hk with h | h
            · exact hlok.good.disjointRV k h (by rw [hvis2]; exact List.mem_append_left _ hkv)
            · simp only [List.mem_singleton] at h
              subst h
              exact hv hkv
          · exact hlok.good.traceNodup
          · show ∀ m ∈ st2.trace, m ∈ keys (st2.resolved ++ [(name, r)]) ∨ m ∈ st2.visiting.erase name
            intro m hm
            rcases hlok.good.traceCover m hm with h | h
            · exact Or.inl (by rw [hkeys_out]; exact List.mem_append_left _ h)
            · rw [hvis2] at h
              rcases List.mem_append.1 h with h2 | h2
              · exact Or.inr (by rw [hoerase]; exact h2)
              · simp only [List.mem_singleton] at h2
                subst h2
                exact Or.inl (by
                  rw [hkeys_out]
                  exact List.mem_append_right _ (List.mem_cons_self _ _))
          · show ∀ k ∈ keys (st2.resolved ++ [(name, r)]), k ∈ st2.trace
            intro k hk
            rw [hkeys_out] at hk
            rcases List.mem_append.1 hk with h | h
            · exact hlok.good.resolvedTraced k h
            · simp only [List.mem_singleton] at h
              subst h
              exact hname_tr2
          · exact hodrop
          · exact hoerase
          · refine ⟨l2 ++ [(name, r)], ?_⟩
            show st2.resolved ++ [(name, r)] = st.resolved ++ (l2 ++ [(name, r)])
            rw [hres2]
            show st.resolved ++ l2 ++ [(name, r)] = st.resolved ++ (l2 ++ [(name, r)])
            rw [List.append_assoc]
          · refine ⟨[name] ++ t2, ?_⟩
            show st2.trace = st.trace ++ ([name] ++ t2)
            rw [htr2]
            show st.trace ++ [name] ++ t2 = st.trace ++ ([name] ++ t2)
            rw [List.append_assoc]
          · show name ∈ keys (st2.resolved ++ [(name, r)])
            rw [hkeys_out]
            exact List.mem_append_right _ (List.mem_cons_self _ _)

theorem pdep_all {env : ResolverEnv} {root : String} {L : List String}
    (hC : Closed env L) (hroot : root ∈ L) : ∀ fuel, PDep env root L fuel := by
  intro fuel
  induction fuel with
  | zero => exact pdep_zero hC hroot
  | succ fuel ih => exact pdep_succ ih

/-! ## Outcome classification of a full DFS run -/

theorem resolveDependencies_top {env : ResolverEnv} {root : String} {L : List String}
    (hC : Closed env L) (hroot : root ∈ L) {fuel : Nat} (hfuel : L.length + 1 ≤ fuel) :
    ResultSpec env root initState root (resolveDependencies env fuel root initState) := by
  refine pdep_all hC hroot fuel root initState (goodState_init env root) (Or.inl ⟨rfl, rfl⟩) ?_
  show L.length + 1 ≤ ([] : List String).length + fuel
  simpa using hfuel

/-- A topologically sorted list is closed under reachability from its keys. -/
theorem reaches_mem_keys {env : ResolverEnv} {l : List (String × ResolvedItem)}
    (htopo : TopoSorted env l) {a b : String} (ha : a ∈ keys l)
    (hr : Reaches env a b) : b ∈ keys l := by
  induction hr with
  | refl => exact ha
  | tail _ he ih =>
    obtain ⟨r, hmem⟩ := mem_of_mem_keys ih
    obtain ⟨h1, h2⟩ := htopo.of_mem hmem
    rw [edge_iff, depsOf_eq_some h1] at he
    exact h2 _ he

/-- A chain whose endpoints coincide and which has at least one edge is a
cycle in the strict transitive closure. -/
theorem transGen_of_cycle {env : ResolverEnv} {c : List String} {n : String}
    (hh : c.head? = some n) (hl : c.getLast? = some n)
    (hc : List.Chain' (Edge env) c) (hlen : 2 ≤ c.length) :
    Relation.TransGen (Edge env) n n := by
  cases c with
  | nil => simp at hh
  | cons a t =>
    simp only [List.head?_cons, Option.some.injEq] at hh
    cases t with
    | nil => simp at hlen
    | cons d t' =>
      subst hh
      have hedge : Edge env a d := (List.chain'_cons.1 hc).1
      have hchain : List.Chain (Edge env) d t' := (List.chain'_cons.1 hc).2
      have hlast : (d :: t').getLast (List.cons_ne_nil _ _) = a := by
        have h1 : (a :: d :: t').getLast? = (d :: t').getLast? := by
          simp [List.getLast?_cons_cons]
        rw [h1, List.getLast?_eq_getLast _ (List.cons_ne_nil _ _)] at hl
        simpa using hl
      have hrt : Relation.ReflTransGen (Edge env) d a :=
        List.relationReflTransGen_of_exists_chain t' hchain hlast
      exact Relation.TransGen.head' hedge hrt

/-- Under full resolvability, the only error a run can report is the
circular one, and its payload is a genuine cycle. -/
theorem ErrorSpec.circular_of_resolvable {env : ResolverEnv} {root : String}
    {e : ResolveError} (h : ErrorSpec env root e)
    (hres : ∀ n, Reaches env root n → (resolveRef env n).isSome) :
    ∃ c, e = .circular c ∧ GenuineCycle env root c := by
  cases e with
  | circular c => exact ⟨c, rfl, h.circular_case c rfl⟩
  | notFound m =>
    obtain ⟨hnone, hm⟩ := h.notFound_case m rfl
    have := hres m hm
    rw [hnone] at this
    simp at this
  | rootUnresolved m => exact absurd rfl (h.no_rootUnresolved m)
  | outOfFuel => exact absurd rfl h.no_outOfFuel

/-- A genuine cycle exhibits a strictly cyclic reachable name. -/
theorem GenuineCycle.to_transGen {env : ResolverEnv} {root : String}
    {c : List String} (h : GenuineCycle env root c) :
    ∃ n, Reaches env root n ∧ Relation.TransGen (Edge env) n n := by
  obtain ⟨n, hh, hl, hchain, hlen, hreach⟩ := h
  have hmem : n ∈ c := by
    cases c with
    | nil => simp at hh
    | cons a t =>
      simp only [List.head?_cons, Option.some.injEq] at hh
      subst hh
      exact List.mem_cons_self _ _
  exact ⟨n, hreach n hmem, transGen_of_cycle hh hl hchain hlen⟩

theorem resolve_success {env : ResolverEnv} {root : String} {L : List String}
    (hC : Closed env L) (hroot : root ∈ L)
    (hres : ∀ n, Reaches env root n → (resolveRef env n).isSome)
    (hacyc : ∀ n, Reaches env root n → ¬ Relation.TransGen (Edge env) n n) :
    ∃ st, resolveDependencies env (L.length + 1) root initState = .ok st ∧
      OkSpec env root initState st root ∧
      (∀ m, m ∈ keys st.resolved ↔ Reaches env root m) := by
  have hspec := resolveDependencies_top hC hroot (le_refl (L.length + 1))
  cases hfin : resolveDependencies env (L.length + 1) root initState with
  | error e =>
    rw [hfin] at hspec
    exfalso
    obtain ⟨c, -, hcyc⟩ := hspec.errE.circular_of_resolvable hres
    obtain ⟨n, hnreach, hntrans⟩ := hcyc.to_transGen
    exact hacyc n hnreach hntrans
  | ok st =>
    rw [hfin] at hspec
    have hok : OkSpec env root initState st root := hspec.okE
    refine ⟨st, rfl, hok, fun m => ⟨fun hm => hok.good.resolvedReach m hm,
      fun hm => reaches_mem_keys hok.good.topo hok.name_mem hm⟩⟩

/-- With ample fuel and full resolvability, a reachable cycle forces the
DFS to abort with a `CircularDependencyError` carrying a genuine cycle. -/
theorem resolve_cycle {env : ResolverEnv} {root : String} {L : List String}
    (hC : Closed env L) (hroot : root ∈ L)
    (hres : ∀ n, Reaches env root n → (resolveRef env n).isSome)
    (hcyc : ∃ n, Reaches env root n ∧ Relation.TransGen (Edge env) n n) :
    ∃ c, resolveDependencies env (L.length + 1) root initState = .error (.circular c) ∧
      GenuineCycle env root c := by
  have hspec := resolveDependencies_top hC hroot (le_refl (L.length + 1))
  cases hfin : resolveDependencies env (L.length + 1) root initState with
  | error e =>
    rw [hfin] at hspec
    obtain ⟨c, rfl, hgc⟩ := hspec.errE.circular_of_resolvable hres
    exact ⟨c, rfl, hgc⟩
  | ok st =>
    rw [hfin] at hspec
    exfalso
    have hok : OkSpec env root initState st root := hspec.okE
    obtain ⟨n, hnreach, hntrans⟩ := hcyc
    have hnkeys : n ∈ keys st.resolved :=
      reaches_mem_keys hok.good.topo hok.name_mem hnreach
    exact hok.good.topo.no_cycle hok.good.nodupKeys hnkeys hntrans

/-- Keys of a filtered association list. -/
theorem keys_filter_ne {α : Type} (c : String) (l : List (String × α)) :
    keys (l.filter fun p => p.1 != c) = (keys l).filter (fun k => k != c) := by
  show (l.filter fun p => p.1 != c).map Prod.fst = (l.map Prod.fst).filter (fun k => k != c)
  rw [List.filter_map]
  rfl

/-! ## Assembling `resolveTree` results -/

theorem resolveRef_eq_url {env : ResolverEnv} {c : String}
    (h : isUrlDependency c = true) : resolveRef env c = resolveByUrl env c := by
  unfold resolveRef
  rw [if_pos h]

theorem resolveRef_eq_name {env : ResolverEnv} {c : String}
    (h : isUrlDependency c = false) : resolveRef env c = env.resolveNameO c := by
  unfold resolveRef
  rw [if_neg (by rw [h]; simp)]

theorem resolveTree_ok_shape {env : ResolverEnv} {root : String} {fuel : Nat}
    {st : ResolutionState} (hfin : resolveDependencies env fuel root initState = .ok st)
    {rt : ResolvedItem} (hrt : st.resolved.lookup root = some rt) :
    resolveTree env fuel root = .ok ⟨rt, st.resolved.filter (fun p => p.1 != root)⟩ := by
  unfold resolveTree
  rw [hfin]
  dsimp only
  rw [hrt]

theorem resolveTree_error_shape {env : ResolverEnv} {root : String} {fuel : Nat}
    {e : ResolveError} (hfin : resolveDependencies env fuel root initState = .error e) :
    resolveTree env fuel root = .error e := by
  unfold resolveTree
  rw [hfin]

theorem resolveTree_ok_inv {env : ResolverEnv} {root : String} {fuel : Nat}
    {t : DependencyTree} (h : resolveTree env fuel root = .ok t) :
    ∃ st, resolveDependencies env fuel root initState = .ok st ∧
      st.resolved.lookup root = some t.root ∧
      t.dependencies = st.resolved.filter (fun p => p.1 != root) := by
  unfold resolveTree at h
  cases hfin : resolveDependencies env fuel root initState with
  | error e =>
    rw [hfin] at h
    simp at h
  | ok st =>
    rw [hfin] at h
    dsimp only at h
    cases hrt : st.resolved.lookup root with
    | none =>
      rw [hrt] at h
      simp at h
    | some rt =>
      rw [hrt] at h
      simp only [Except.ok.injEq] at h
      subst h
      exact ⟨st, rfl, hrt, rfl⟩

/-! ## Decidability and finite-graph helpers for concrete environments -/

instance exceptDecEq {ε α : Type} [DecidableEq ε] [DecidableEq α] :
    DecidableEq (Except ε α) := fun a b =>
  match a, b with
  | .ok x, .ok y => if h : x = y then .isTrue (by rw [h]) else .isFalse (by simp [h])
  | .error x, .error y => if h : x = y then .isTrue (by rw [h]) else .isFalse (by simp [h])
  | .ok _, .error _ => .isFalse (by simp)
  | .error _, .ok _ => .isFalse (by simp)

instance closedDec (env : ResolverEnv) (L : List String) : Decidable (Closed env L) :=
  inferInstanceAs (Decidable (∀ n ∈ L, ∀ m ∈ depsOf env n, m ∈ L))

/-- Lifts per-name resolvability over a closed universe to all reachable
names. -/
theorem resolvable_of_mem {env : ResolverEnv} {L : List String} {root : String}
    (hC : Closed env L) (hroot : root ∈ L)
    (h : ∀ n ∈ L, (resolveRef env n).isSome) :
    ∀ n, Reaches env root n → (resolveRef env n).isSome :=
  fun n hn => h n (mem_of_reaches hC hroot hn)

/-- A rank function that strictly decreases along the edges leaving the
closed universe's members rules out reachable cycles. -/
theorem no_reachable_cycle_of_rank {env : ResolverEnv} {L : List String} {root : String}
    (hC : Closed env L) (hroot : root ∈ L) (rank : String → Nat)
    (hrank : ∀ a ∈ L, ∀ b ∈ depsOf env a, rank b < rank a) :
    ∀ n, Reaches env root n → ¬ Relation.TransGen (Edge env) n n := by
  intro n hn htg
  have hnL : n ∈ L := mem_of_reaches hC hroot hn
  have key : ∀ a b : String, Relation.TransGen (Edge env) a b → a ∈ L →
      b ∈ L ∧ rank b < rank a := by
    intro a b hab
    induction hab with
    | single h1 => intro ha; exact ⟨hC _ ha _ h1, hrank _ ha _ h1⟩
    | tail _ h2 ih =>
      intro ha
      obtain ⟨hbL, hlt⟩ := ih ha
      exact ⟨hC _ hbL _ h2, lt_trans (hrank _ hbL _ h2) hlt⟩
  obtain ⟨-, h⟩ := key n n htg hnL
  omega

/-- A small concrete registry environment: `items` is the catalog searched
by name, `urls` the items addressable by direct URL. -/
def mkEnv (items : List (String × RegistryItem)) (urls : List (String × RegistryItem)) :
    ResolverEnv where
  fetchItemAt := fun u => urls.lookup u
  resolveNameO := fun s => (items.lookup s).map fun it => ⟨s, it, "https://registry.example.com"⟩

/-- The spec's concrete scenario: `dialog` depends on `button` and `card`,
`card` depends on `button` (a shared dependency reached via two parents). -/
def diamondEnv : ResolverEnv :=
  mkEnv [("dialog", ⟨"dialog", ["button", "card"]⟩),
         ("card", ⟨"card", ["button"]⟩),
         ("button", ⟨"button", []⟩)] []

def diamondRank : String → Nat :=
  fun s => if s = "dialog" then 2 else if s = "card" then 1 else 0

/-- A root addressed by direct URL whose payload is named `a`, which also
names a plain registry dependency. -/
def urlRootRef : String := "https://e.com/a.json"

def urlRootEnv : ResolverEnv :=
  mkEnv [("a", ⟨"a", []⟩)] [(urlRootRef, ⟨"a", ["a"]⟩)]

def urlRootRank : String → Nat := fun s => if s = urlRootRef then 1 else 0

/-- A two-cycle `a → b → a`. -/
def cycleEnv : ResolverEnv := mkEnv [("a", ⟨"a", ["b"]⟩), ("b", ⟨"b", ["a"]⟩)] []

/-- A reachable self-cycle on `a` shadowed by the unresolvable sibling
`bad` that the DFS meets first. -/
def shadowedCycleEnv : ResolverEnv :=
  mkEnv [("root", ⟨"root", ["bad", "a"]⟩), ("a", ⟨"a", ["a"]⟩)] []

/-- The repo test's URL-dependency scenario: `wrapper` depends on an item
by direct URL, and the fetched payload is named `external-button`. -/
def wrapperUrl : String := "https://external.com/r/external-button.json"

def wrapperEnv : ResolverEnv :=
  mkEnv [("wrapper", ⟨"wrapper", [wrapperUrl]⟩)] [(wrapperUrl, ⟨"external-button", []⟩)]

/-! ## Claim C1 -/

/-- C1 (amended): for every environment and root reference whose reachable
`registryDependencies` graph (confined to a finite edge-closed universe
`L`) is acyclic and fully resolvable, `resolveTree` terminates (fuel
`|L| + 1` suffices) and returns a tree whose dependencies map has pairwise
distinct keys that are exactly the references transitively reachable from
the root, excluding the root reference itself; in particular the root
reference never occurs as a key.  (The frozen claim instead asserted that
no key equals `root.name`, which fails for URL roots — see the
counterexample.) -/
theorem c1_resolveTree_dependencies_exact (env : ResolverEnv) (root : String)
    (L : List String) (hC : Closed env L) (hrootL : root ∈ L)
    (hres : ∀ n, Reaches env root n → (resolveRef env n).isSome)
    (hacyc : ∀ n, Reaches env root n → ¬ Relation.TransGen (Edge env) n n) :
    ∃ t, resolveTree env (L.length + 1) root = .ok t ∧
      (keys t.dependencies).Nodup ∧
      (∀ m, m ∈ keys t.dependencies ↔ (Reaches env root m ∧ m ≠ root)) ∧
      root ∉ keys t.dependencies := by
  obtain ⟨st, hfin, hok, hiff⟩ := resolve_success hC hrootL hres hacyc
  have hlook : (st.resolved.lookup root).isSome := lookup_isSome_iff.2 hok.name_mem
  obtain ⟨rt, hrt⟩ := Option.isSome_iff_exists.1 hlook
  refine ⟨⟨rt, st.resolved.filter (fun p => p.1 != root)⟩,
    resolveTree_ok_shape hfin hrt, ?_, ?_, ?_⟩
  · show (keys (st.resolved.filter fun p => p.1 != root)).Nodup
    rw [keys_filter_ne]
    exact hok.good.nodupKeys.filter _
  · intro m
    show m ∈ keys (st.resolved.filter fun p => p.1 != root) ↔ _
    rw [keys_filter_ne, List.mem_filter]
    constructor
    · rintro ⟨hm, hne⟩
      exact ⟨(hiff m).1 hm, by simpa using hne⟩
    · rintro ⟨hm, hne⟩
      exact ⟨(hiff m).2 hm, by simpa using hne⟩
  · show root ∉ keys (st.resolved.filter fun p => p.1 != root)
    rw [keys_filter_ne, List.mem_filter]
    rintro ⟨-, h⟩
    simp at h

/-- C1 witness: the spec's `dialog`/`card`/`button` scenario satisfies all
the hypotheses, and the amended theorem applies. -/
theorem c1_witness :
    ∃ t, resolveTree diamondEnv (["dialog", "card", "button"].length + 1) "dialog" = .ok t ∧
      (keys t.dependencies).Nodup ∧
      (∀ m, m ∈ keys t.dependencies ↔ (Reaches diamondEnv "dialog" m ∧ m ≠ "dialog")) ∧
      "dialog" ∉ keys t.dependencies :=
  c1_resolveTree_dependencies_exact diamondEnv "dialog" ["dialog", "card", "button"]
    (by decide) (by decide)
    (resolvable_of_mem (L := ["dialog", "card", "button"]) (by decide) (by decide) (by decide))
    (no_reachable_cycle_of_rank (L := ["dialog", "card", "button"]) (by decide) (by decide)
      diamondRank (by decide))

/-- C1 counterexample: at a URL root the claim's hypotheses hold (the
reachable graph is acyclic and fully resolvable) yet `tree.dependencies`
contains the key `"a"`, which equals `t.root.name` — the map excludes the
root reference, not `root.name`. -/
theorem c1_counterexample :
    (∀ n, Reaches urlRootEnv urlRootRef n → (resolveRef urlRootEnv n).isSome) ∧
    (∀ n, Reaches urlRootEnv urlRootRef n → ¬ Relation.TransGen (Edge urlRootEnv) n n) ∧
    (resolveTree urlRootEnv 3 urlRootRef).map
      (fun t => (t.root.name, keys t.dependencies)) = .ok ("a", ["a"]) :=
  ⟨resolvable_of_mem (L := [urlRootRef, "a"]) (by decide) (by decide) (by decide),
   no_reachable_cycle_of_rank (L := [urlRootRef, "a"]) (by decide) (by decide)
     urlRootRank (by decide),
   by decide⟩

/-! ## Claim C2 -/

/-- C2 (amended): when every reachable reference resolves and the
reachable graph (confined to a finite edge-closed universe `L`) contains a
cycle, `resolveTree` raises `CircularDependencyError` and returns no tree
for that root; the carried cycle starts and ends with the same repeated
name, has length at least two, and its consecutive entries are actual
`registryDependencies` edges — so it is itself a cycle of the graph and
contains no names outside it — with every entry reachable from the root.
(The frozen claim omitted resolvability: an unresolvable sibling met
before the cycle yields `ComponentNotFoundError` instead — see the
counterexample.) -/
theorem c2_circular_error (env : ResolverEnv) (root : String) (L : List String)
    (hC : Closed env L) (hrootL : root ∈ L)
    (hres : ∀ n, Reaches env root n → (resolveRef env n).isSome)
    (hcyc : ∃ n, Reaches env root n ∧ Relation.TransGen (Edge env) n n) :
    ∃ c n, resolveTree env (L.length + 1) root = .error (.circular c) ∧
      c.head? = some n ∧ c.getLast? = some n ∧ 2 ≤ c.length ∧
      List.Chain' (Edge env) c ∧ ∀ m ∈ c, Reaches env root m := by
  obtain ⟨c, hfin, hgc⟩ := resolve_cycle hC hrootL hres hcyc
  obtain ⟨n, hh, hl, hchain, hlen, hreach⟩ := hgc
  exact ⟨c, n, resolveTree_error_shape hfin, hh, hl, hlen, hchain, hreach⟩

/-- C2 witness: the two-cycle `a → b → a` raises a circular error whose
payload is a genuine cycle. -/
theorem c2_witness :
    ∃ c n, resolveTree cycleEnv (["a", "b"].length + 1) "a" = .error (.circular c) ∧
      c.head? = some n ∧ c.getLast? = some n ∧ 2 ≤ c.length ∧
      List.Chain' (Edge cycleEnv) c ∧ ∀ m ∈ c, Reaches cycleEnv "a" m :=
  c2_circular_error cycleEnv "a" ["a", "b"] (by decide) (by decide)
    (resolvable_of_mem (L := ["a", "b"]) (by decide) (by decide) (by decide))
    ⟨"a", Relation.ReflTransGen.refl,
      @Relation.TransGen.tail String (Edge cycleEnv) "a" "b" "a"
        (Relation.TransGen.single (by decide)) (by decide)⟩

/-- C2 counterexample: the reachable graph contains the cycle `a → a`,
yet `resolveTree` raises `ComponentNotFoundError` for the unresolvable
sibling `bad` encountered first — not `CircularDependencyError`. -/
theorem c2_counterexample :
    Reaches shadowedCycleEnv "root" "a" ∧
    Relation.TransGen (Edge shadowedCycleEnv) "a" "a" ∧
    resolveTree shadowedCycleEnv 4 "root" = .error (.notFound "bad") :=
  ⟨Relation.ReflTransGen.single (by decide),
   Relation.TransGen.single (by decide),
   by decide⟩

/-! ## Claim C3 -/

/-- C3: in a successful `resolveTree` run (fully resolvable, acyclic
reachable graph confined to the finite edge-closed universe `L`), every
reachable reference `N` — in particular one reached through two or more
parents — has its fetch/locate work executed exactly once (the `trace`
instrumentation records it exactly once and is duplicate-free, so the
subtree of an already-resolved name is never re-walked), and when `N` is
not the root it occurs exactly once among the keys of
`tree.dependencies`. -/
theorem c3_dedup_single_fetch (env : ResolverEnv) (root N : String) (L : List String)
    (hC : Closed env L) (hrootL : root ∈ L)
    (hres : ∀ n, Reaches env root n → (resolveRef env n).isSome)
    (hacyc : ∀ n, Reaches env root n → ¬ Relation.TransGen (Edge env) n n)
    (hN : Reaches env root N) :
    ∃ st t, resolveDependencies env (L.length + 1) root initState = .ok st ∧
      resolveTree env (L.length + 1) root = .ok t ∧
      st.trace.count N = 1 ∧ st.trace.Nodup ∧
      (N ≠ root → (keys t.dependencies).count N = 1) := by
  obtain ⟨st, hfin, hok, hiff⟩ := resolve_success hC hrootL hres hacyc
  have hNkeys : N ∈ keys st.resolved := (hiff N).2 hN
  have hNtrace : N ∈ st.trace := hok.good.resolvedTraced N hNkeys
  have htr_count : st.trace.count N = 1 :=
    List.count_eq_one_of_mem hok.good.traceNodup hNtrace
  have hlook : (st.resolved.lookup root).isSome := lookup_isSome_iff.2 hok.name_mem
  obtain ⟨rt, hrt⟩ := Option.isSome_iff_exists.1 hlook
  refine ⟨st, ⟨rt, st.resolved.filter (fun p => p.1 != root)⟩, hfin,
    resolveTree_ok_shape hfin hrt, htr_count, hok.good.traceNodup, ?_⟩
  intro hne
  show (keys (st.resolved.filter fun p => p.1 != root)).count N = 1
  rw [keys_filter_ne]
  refine List.count_eq_one_of_mem (hok.good.nodupKeys.filter _) ?_
  rw [List.mem_filter]
  exact ⟨hNkeys, by simpa using hne⟩

/-- C3 witness: in the diamond scenario `button` is reached via both
`dialog` and `card`, is fetched exactly once, and appears exactly once in
the dependencies map. -/
theorem c3_witness :
    ∃ st t,
      resolveDependencies diamondEnv (["dialog", "card", "button"].length + 1)
        "dialog" initState = .ok st ∧
      resolveTree diamondEnv (["dialog", "card", "button"].length + 1) "dialog" = .ok t ∧
      st.trace.count "button" = 1 ∧ st.trace.Nodup ∧
      ("button" ≠ "dialog" → (keys t.dependencies).count "button" = 1) :=
  c3_dedup_single_fetch diamondEnv "dialog" "button" ["dialog", "card", "button"]
    (by decide) (by decide)
    (resolvable_of_mem (L := ["dialog", "card", "button"]) (by decide) (by decide) (by decide))
    (no_reachable_cycle_of_rank (L := ["dialog", "card", "button"]) (by decide) (by decide)
      diamondRank (by decide))
    (Relation.ReflTransGen.single (by decide))

/-! ## Claim C10 -/

/-- C10: in any successful `resolveTree` run, an entry of
`tree.dependencies` whose key is a direct-URL reference maps to the
`resolveByUrl` result for that URL: its `source` is the URL reference
itself (the map key, exactly as it appeared in `registryDependencies`),
and its `name` and `item` are taken from the fetched payload — so the map
key of a URL dependency need not equal the name of the item it maps to. -/
theorem c10_url_dependency_key (env : ResolverEnv) (root : String) (L : List String)
    (fuel : Nat) (hC : Closed env L) (hrootL : root ∈ L)
    (hfuel : L.length + 1 ≤ fuel) (t : DependencyTree)
    (hok : resolveTree env fuel root = .ok t) (d : String) (r : ResolvedItem)
    (hmem : (d, r) ∈ t.dependencies) (hurl : isUrlDependency d = true) :
    ∃ it, env.fetchItemAt d = some it ∧ r = ⟨it.name, it, d⟩ := by
  obtain ⟨st, hfin, hlook, hdeps⟩ := resolveTree_ok_inv hok
  have hspec := resolveDependencies_top hC hrootL hfuel
  rw [hfin] at hspec
  have hok2 := hspec.okE
  have hmem2 : (d, r) ∈ st.resolved := by
    rw [hdeps] at hmem
    exact List.mem_of_mem_filter hmem
  obtain ⟨hres, -⟩ := hok2.good.topo.of_mem hmem2
  rw [resolveRef_eq_url hurl] at hres
  unfold resolveByUrl at hres
  cases hit : env.fetchItemAt d with
  | none =>
    rw [hit] at hres
    simp at hres
  | some it =>
    rw [hit] at hres
    simp only [Option.map_some', Option.some.injEq] at hres
    exact ⟨it, rfl, hres.symm⟩

/-- C10 witness: the repo test's scenario — `wrapper` depends on a direct
URL whose payload is named `external-button`; the dependencies entry is
keyed by the URL while its resolved name is the payload name, and the two
differ. -/
theorem c10_witness :
    (∃ it, wrapperEnv.fetchItemAt wrapperUrl = some it ∧
      (⟨"external-button", ⟨"external-button", []⟩, wrapperUrl⟩ : ResolvedItem) =
        ⟨it.name, it, wrapperUrl⟩) ∧
    "external-button" ≠ wrapperUrl :=
  ⟨c10_url_dependency_key wrapperEnv "wrapper" ["wrapper", wrapperUrl] 3
    (by decide) (by decide) (by decide)
    ⟨⟨"wrapper", ⟨"wrapper", [wrapperUrl]⟩, "https://registry.example.com"⟩,
      [(wrapperUrl, ⟨"external-button", ⟨"external-button", []⟩, wrapperUrl⟩)]⟩
    (by decide) wrapperUrl ⟨"external-button", ⟨"external-button", []⟩, wrapperUrl⟩
    (by decide) (by decide),
   by decide⟩

/-! ## Catalog Fetcher (fetcher.ts)

The fetcher is embedded generically in the payload type `α`: `fetchRegistry`
and `fetchItem` are the two instantiations (they differ only in the schema
they validate against and the cache partition they use).  A response's
`body` field models the composition of `response.json()` and
`safeParse`: `some data` is a payload that parses and validates, `none`
one that fails (raising `SchemaValidationError`).  The in-memory caches
become explicit state passed in and returned; `Date.now()` becomes the
explicit `now` argument.  The network is an oracle from the attempt index
to that attempt's outcome. -/

/-- An HTTP response as the fetcher inspects it. -/
structure HttpResponse (α : Type) where
  status : Nat
  rlRemaining : Option String
  rlReset : Option Nat
  etag : Option String
  body : Option α
  deriving Repr, DecidableEq

/-- Outcome of one `fetch()` call: a response, or the transport exception
(`TypeError`) a failed fetch rejects with. -/
inductive AttemptOutcome (α : Type) where
  | resp (r : HttpResponse α)
  | exn
  deriving Repr, DecidableEq

/-- What `fetchWithRetry` can throw: `GitHubRateLimitError`, the plain
`HTTP <status>` Error kept as `lastError` after a 5xx, the transport
exception kept as `lastError`, or the generic `Fetch failed after
retries` error when no attempt ran. -/
inductive FetchErr where
  | rateLimit (resetMs : Nat)
  | httpError (status : Nat)
  | transport
  | exhausted
  deriving Repr, DecidableEq

def DEFAULT_MAX_RETRIES : Nat := 3

def DEFAULT_INITIAL_DELAY_MS : Nat := 1000

/-- `getBackoffDelay` from fetcher.ts: `initialDelay * 2^attempt`. -/
def getBackoffDelay (attempt initialDelay : Nat) : Nat := initialDelay * 2 ^ attempt

/-- The rate-limit pattern of fetcher.ts lines 117-124: status 403 with
`x-ratelimit-remaining == '0'` and a reset-time header present. -/
def isRateLimited {α : Type} (r : HttpResponse α) : Bool :=
  r.status == 403 && r.rlRemaining == some "0" && r.rlReset.isSome

/-- `new Date(parseInt(reset) * 1000)`: the decoded reset time in epoch
milliseconds. -/
def rlResetMs {α : Type} (r : HttpResponse α) : Nat := 1000 * r.rlReset.getD 0

/-- The immediate-return condition of fetcher.ts line 128:
`response.ok || response.status === 304 || (400 <= status < 500)`. -/
def isReturnable {α : Type} (r : HttpResponse α) : Bool :=
  (decide (200 ≤ r.status) && decide (r.status < 300)) || r.status == 304 ||
    (decide (400 ≤ r.status) && decide (r.status < 500))

/-- Observable outcome of a `fetchWithRetry` run: the result, the backoff
sleeps performed (in order), and how many `fetch()` calls were made. -/
structure FetchRun (α : Type) where
  result : Except FetchErr (HttpResponse α)
  sleeps : List Nat
  calls : Nat
  deriving Repr, DecidableEq

/-- One iteration of the retry loop of `fetchWithRetry` (fetcher.ts lines
112-146): check the rate-limit pattern, return 2xx/304/4xx immediately,
keep 5xx or a transport exception as `lastError`, sleep
`getBackoffDelay attempt` unless this was the last attempt, and continue. -/
def retryStep {α : Type} (net : Nat → AttemptOutcome α) (maxRetries initialDelay : Nat)
    (recfn : Nat → Option FetchErr → List Nat → FetchRun α)
    (attempt : Nat) (lastError : Option FetchErr) (sleeps : List Nat) : FetchRun α :=
  match net attempt with
  | .resp r =>
    if isRateLimited r then
      ⟨.error (.rateLimit (rlResetMs r)), sleeps, attempt + 1⟩
    else if isReturnable r then
      ⟨.ok r, sleeps, attempt + 1⟩
    else
      recfn (attempt + 1) (some (.httpError r.status))
        (if attempt < maxRetries - 1 then sleeps ++ [getBackoffDelay attempt initialDelay]
         else sleeps)
  | .exn =>
      recfn (attempt + 1) (some .transport)
        (if attempt < maxRetries - 1 then sleeps ++ [getBackoffDelay attempt initialDelay]
         else sleeps)

/-- The retry loop, driven by `remaining = maxRetries - attempt` (the
iterations the `for` loop has left) so that the recursion is structural;
when no iteration remains, throw `lastError` (or the generic error). -/
def fetchWithRetryGo {α : Type} (net : Nat → AttemptOutcome α)
    (maxRetries initialDelay : Nat) :
    Nat → Nat → Option FetchErr → List Nat → FetchRun α
  | 0, attempt, lastError, sleeps => ⟨.error (lastError.getD .exhausted), sleeps, attempt⟩
  | remaining + 1, attempt, lastError, sleeps =>
    retryStep net maxRetries initialDelay
      (fetchWithRetryGo net maxRetries initialDelay remaining) attempt lastError sleeps

/-- `fetchWithRetry` from fetcher.ts (lines 104-149). -/
def fetchWithRetry {α : Type} (net : Nat → AttemptOutcome α)
    (maxRetries initialDelay : Nat) : FetchRun α :=
  fetchWithRetryGo net maxRetries initialDelay maxRetries 0 none []

/-- `CacheEntry` from fetcher.ts. -/
structure CacheEntry (α : Type) where
  data : α
  etag : Option String
  timestamp : Nat
  deriving Repr, DecidableEq

/-- `FetchResult` from fetcher.ts. -/
structure FetchResult (α : Type) where
  data : α
  cached : Bool
  etag : Option String
  deriving Repr, DecidableEq

/-- The errors `fetchRegistry`/`fetchItem` can propagate:
`RegistryFetchError` (with the HTTP status when one was seen),
`SchemaValidationError`, `GitHubRateLimitError`, and a plain Error
escaping raw (the `HTTP 5xx` `lastError` or retry exhaustion propagating
out of the revalidation branch, which only catches `RegistryFetchError`
and `TypeError`). -/
inductive FetcherError where
  | registryFetch (status : Option Nat)
  | schemaValidation
  | rateLimit (resetMs : Nat)
  | generic (status : Option Nat)
  deriving Repr, DecidableEq

/-- One cache partition, keyed by request URL (`Map` with insertion
order). -/
abbrev CacheMap (α : Type) : Type := List (String × CacheEntry α)

/-- `Map.set`: overwrite in place when the key exists, append otherwise. -/
def setEntry {α : Type} (m : CacheMap α) (url : String) (e : CacheEntry α) : CacheMap α :=
  if (List.lookup url m).isSome then
    m.map (fun p => if p.1 = url then (url, e) else p)
  else m ++ [(url, e)]

/-- The fresh-fetch branch shared by `fetchRegistry`/`fetchItem`
(fetcher.ts lines 207-234 and 294-321): fetch with retry, throw
`RegistryFetchError(url, status)` on a non-2xx response, throw
`SchemaValidationError` on an invalid payload, cache the freshly parsed
data when caching is on; thrown non-fetcher errors (transport, the `HTTP
5xx` lastError, exhaustion) are wrapped into `RegistryFetchError(url,
undefined, cause)` by the outer catch, while rate-limit errors pass
through it. -/
def fetchFresh {α : Type} (net : Nat → AttemptOutcome α) (url : String)
    (cache : Bool) (cacheMap : CacheMap α) (now : Nat) :
    Except FetcherError (FetchResult α × CacheMap α) :=
  match (fetchWithRetry net DEFAULT_MAX_RETRIES DEFAULT_INITIAL_DELAY_MS).result with
  | .ok response =>
    if decide (200 ≤ response.status) && decide (response.status < 300) then
      match response.body with
      | none => .error .schemaValidation
      | some data =>
        .ok (⟨data, false, response.etag⟩,
          if cache then setEntry cacheMap url ⟨data, response.etag, now⟩ else cacheMap)
    else .error (.registryFetch (some response.status))
  | .error (.rateLimit t) => .error (.rateLimit t)
  | .error (.httpError _) => .error (.registryFetch none)
  | .error .transport => .error (.registryFetch none)
  | .error .exhausted => .error (.registryFetch none)

/-- `fetchRegistry`/`fetchItem` from fetcher.ts (lines 156-235 and
243-322), generic in the payload: on a cache hit with a stored ETag, issue
the conditional request (`If-None-Match`); a 304 returns the cached entry
(`cached:true`) without touching the body; a changed response re-validates
and re-caches; the catch around the conditional request returns the stale
cached value for `RegistryFetchError`/`TypeError` (transport) and
rethrows everything else (schema validation, rate limit, plain errors).
A cache hit without an ETag returns the cached data directly; otherwise
fall through to the fresh fetch. -/
def fetchCached {α : Type} (net : Nat → AttemptOutcome α) (url : String)
    (cache : Bool) (cacheMap : CacheMap α) (now : Nat) :
    Except FetcherError (FetchResult α × CacheMap α) :=
  if cache then
    match List.lookup url cacheMap with
    | some entry =>
      match entry.etag with
      | some _ =>
        match (fetchWithRetry net DEFAULT_MAX_RETRIES DEFAULT_INITIAL_DELAY_MS).result with
        | .ok response =>
          if response.status == 304 then
            .ok (⟨entry.data, true, entry.etag⟩, cacheMap)
          else
            match response.body with
            | none => .error .schemaValidation
            | some data =>
              .ok (⟨data, false, response.etag⟩,
                setEntry cacheMap url ⟨data, response.etag, now⟩)
        | .error .transport => .ok (⟨entry.data, true, entry.etag⟩, cacheMap)
        | .error (.rateLimit t) => .error (.rateLimit t)
        | .error (.httpError s) => .error (.generic (some s))
        | .error .exhausted => .error (.generic none)
      | none => .ok (⟨entry.data, true, entry.etag⟩, cacheMap)
    | none => fetchFresh net url cache cacheMap now
  else fetchFresh net url cache cacheMap now

/-- The opaque validated payload of a catalog index (`Registry`). -/
abbrev RegPayload : Type := String

/-- The opaque validated payload of a single item (`RegistryItem` JSON). -/
abbrev ItemPayload : Type := String

/-- `fetchRegistry`: the catalog-index instantiation, using the
registry-cache partition. -/
def fetchRegistry (net : Nat → AttemptOutcome RegPayload) (url : String)
    (cache : Bool) (registryCache : CacheMap RegPayload) (now : Nat) :
    Except FetcherError (FetchResult RegPayload × CacheMap RegPayload) :=
  fetchCached net url cache registryCache now

/-- `fetchItem`: the single-item instantiation, using the item-cache
partition. -/
def fetchItem (net : Nat → AttemptOutcome ItemPayload) (url : String)
    (cache : Bool) (itemCache : CacheMap ItemPayload) (now : Nat) :
    Except FetcherError (FetchResult ItemPayload × CacheMap ItemPayload) :=
  fetchCached net url cache itemCache now

/-! ## The retry loop: C6 and C7 -/

/-- An attempt outcome the loop retries: a 5xx response or a transport
exception. -/
def Retryable {α : Type} (o : AttemptOutcome α) : Prop :=
  o = .exn ∨ ∃ r, o = .resp r ∧ 500 ≤ r.status

theorem isRateLimited_false_of_5xx {α : Type} {r : HttpResponse α}
    (h : 500 ≤ r.status) : isRateLimited r = false := by
  unfold isRateLimited
  have h4 : (r.status == 403) = false := beq_eq_false_iff_ne.2 (by omega)
  simp [h4]

theorem isReturnable_false_of_5xx {α : Type} {r : HttpResponse α}
    (h : 500 ≤ r.status) : isReturnable r = false := by
  unfold isReturnable
  have h1 : decide (r.status < 300) = false := by simp; omega
  have h2 : (r.status == 304) = false := beq_eq_false_iff_ne.2 (by omega)
  have h3 : decide (r.status < 500) = false := by simp; omega
  simp [h1, h2, h3]

/-- The loop makes at most `maxRetries` fetch calls. -/
theorem go_calls_le {α : Type} (net : Nat → AttemptOutcome α)
    (maxRetries initialDelay : Nat) :
    ∀ remaining attempt lastError sleeps, attempt + remaining ≤ maxRetries →
      (fetchWithRetryGo net maxRetries initialDelay remaining attempt
        lastError sleeps).calls ≤ maxRetries := by
  intro remaining
  induction remaining with
  | zero =>
    intro attempt le sleeps h
    rw [fetchWithRetryGo]
    show attempt ≤ maxRetries
    omega
  | succ remaining ih =>
    intro attempt le sleeps h
    rw [fetchWithRetryGo]
    unfold retryStep
    cases net attempt with
    | resp r =>
      dsimp only
      by_cases h1 : isRateLimited r
      · rw [if_pos h1]
        show attempt + 1 ≤ maxRetries
        omega
      · rw [if_neg h1]
        by_cases h2 : isReturnable r
        · rw [if_pos h2]
          show attempt + 1 ≤ maxRetries
          omega
        · rw [if_neg h2]
          exact ih (attempt + 1) _ _ (by omega)
    | exn =>
      dsimp only
      exact ih (attempt + 1) _ _ (by omega)

/-- Running through a prefix of retried failures accumulates exactly the
exponential backoff sleeps for those attempts and arrives at attempt `i`. -/
theorem go_skip_failures {α : Type} (net : Nat → AttemptOutcome α)
    (maxRetries initialDelay i : Nat) :
    ∀ remaining attempt lastError sleeps,
      attempt + remaining ≤ maxRetries →
      attempt ≤ i → i < attempt + remaining →
      (∀ j, attempt ≤ j → j < i → Retryable (net j)) →
      ∃ le2, fetchWithRetryGo net maxRetries initialDelay remaining attempt
          lastError sleeps =
        fetchWithRetryGo net maxRetries initialDelay (remaining - (i - attempt)) i le2
          (sleeps ++ (List.range' attempt (i - attempt)).map
            (fun j => getBackoffDelay j initialDelay)) := by
  intro remaining
  induction remaining with
  | zero =>
    intro attempt le sleeps h1 h2 h3 h4
    omega
  | succ remaining ih =>
    intro attempt lastError sleeps hsum hle hlt hfail
    by_cases heq : attempt = i
    · subst heq
      refine ⟨lastError, ?_⟩
      simp
    · have hlt2 : attempt < i := lt_of_le_of_ne hle heq
      have hguard : attempt < maxRetries - 1 := by omega
      have harith : remaining - (i - (attempt + 1)) = remaining + 1 - (i - attempt) := by
        omega
      have hlist : (sleeps ++ [getBackoffDelay attempt initialDelay]) ++
          (List.range' (attempt + 1) (i - (attempt + 1))).map
            (fun j => getBackoffDelay j initialDelay) =
          sleeps ++ (List.range' attempt (i - attempt)).map
            (fun j => getBackoffDelay j initialDelay) := by
        rw [List.append_assoc]
        congr 1
        have h2 : i - attempt = (i - (attempt + 1)) + 1 := by omega
        rw [h2, List.range'_succ, List.map_cons]
        rfl
      rw [fetchWithRetryGo]
      unfold retryStep
      have hr := hfail attempt le_rfl hlt2
      rcases hr with hexn | ⟨r, hresp, h5⟩
      · rw [hexn]
        dsimp only
        rw [if_pos hguard]
        obtain ⟨le2, hgo⟩ := ih (attempt + 1) (some .transport)
          (sleeps ++ [getBackoffDelay attempt initialDelay])
          (by omega) (by omega) (by omega)
          (fun j hj1 hj2 => hfail j (by omega) hj2)
        rw [harith, hlist] at hgo
        exact ⟨le2, hgo⟩
      · rw [hresp]
        dsimp only
        rw [if_neg (by rw [isRateLimited_false_of_5xx h5]; simp),
          if_neg (by rw [isReturnable_false_of_5xx h5]; simp)]
        rw [if_pos hguard]
        obtain ⟨le2, hgo⟩ := ih (attempt + 1) (some (.httpError r.status))
          (sleeps ++ [getBackoffDelay attempt initialDelay])
          (by omega) (by omega) (by omega)
          (fun j hj1 hj2 => hfail j (by omega) hj2)
        rw [harith, hlist] at hgo
        exact ⟨le2, hgo⟩

/-! ## Claim C6 -/

/-- C6: the retry loop makes at most `maxRetries` fetch calls for any
network behaviour; and when attempts `0..i-1` fail retryably (5xx or
transport exception) and attempt `i` returns a response that is 2xx, 304
or non-rate-limited 4xx, the run returns that response immediately with
exactly `i + 1` calls, having slept exactly
`initialDelay * 2^j` after each failed attempt `j < i`. -/
theorem c6_retry_policy {α : Type} (net : Nat → AttemptOutcome α)
    (maxRetries initialDelay i : Nat) (hi : i < maxRetries)
    (hfail : ∀ j, j < i → Retryable (net j))
    (r : HttpResponse α) (hresp : net i = .resp r)
    (hnorl : isRateLimited r = false) (hret : isReturnable r = true) :
    (∀ net' : Nat → AttemptOutcome α,
      (fetchWithRetry net' maxRetries initialDelay).calls ≤ maxRetries) ∧
    fetchWithRetry net maxRetries initialDelay =
      ⟨.ok r, (List.range i).map (fun j => getBackoffDelay j initialDelay), i + 1⟩ := by
  constructor
  · intro net'
    exact go_calls_le net' maxRetries initialDelay maxRetries 0 none [] (by omega)
  · unfold fetchWithRetry
    obtain ⟨le2, hgo⟩ := go_skip_failures net maxRetries initialDelay i maxRetries 0 none []
      (by omega) (by omega) (by omega) (fun j _ hj => hfail j hj)
    rw [hgo]
    obtain ⟨k, hk⟩ : ∃ k, maxRetries - (i - 0) = k + 1 := ⟨maxRetries - i - 1, by omega⟩
    rw [hk, fetchWithRetryGo]
    unfold retryStep
    rw [hresp]
    dsimp only
    rw [if_neg (by rw [hnorl]; simp), if_pos hret]
    simp [List.range_eq_range']

/-- C6 witness: a 5xx on attempt 0, a transport exception on attempt 1,
and a 200 on attempt 2: three calls, sleeps 1000 then 2000, and the 200
response returned. -/
def c6net : Nat → AttemptOutcome String :=
  fun j => if j = 0 then .resp ⟨500, none, none, none, none⟩
    else if j = 1 then .exn
    else .resp ⟨200, none, none, some "W/\"e1\"", some "payload"⟩

theorem c6_witness :
    (∀ net' : Nat → AttemptOutcome String,
      (fetchWithRetry net' 3 1000).calls ≤ 3) ∧
    fetchWithRetry c6net 3 1000 =
      ⟨.ok ⟨200, none, none, some "W/\"e1\"", some "payload"⟩, [1000, 2000], 3⟩ := by
  have h := c6_retry_policy c6net 3 1000 2 (by omega)
    (fun j hj => by
      match j, hj with
      | 0, _ => exact Or.inr ⟨⟨500, none, none, none, none⟩, rfl, by decide⟩
      | 1, _ => exact Or.inl rfl)
    ⟨200, none, none, some "W/\"e1\"", some "payload"⟩ rfl (by decide) (by decide)
  have h2 : (List.range 2).map (fun j => getBackoffDelay j 1000) = [1000, 2000] := by
    decide
  rw [h2] at h
  exact h

/-! ## Claim C7 -/

/-- C7: a 403 response whose remaining-quota header is `"0"` and which
carries a reset-time header makes the fetcher raise the rate-limit error
with the decoded reset time (epoch seconds times 1000) immediately: no
further attempt is made regardless of how many remain (exactly `i + 1`
calls), and no backoff sleep follows it. -/
theorem c7_rate_limit_immediate {α : Type} (net : Nat → AttemptOutcome α)
    (maxRetries initialDelay i : Nat) (hi : i < maxRetries)
    (hfail : ∀ j, j < i → Retryable (net j))
    (r : HttpResponse α) (hresp : net i = .resp r) (hst : r.status = 403)
    (hrem : r.rlRemaining = some "0") (n : Nat) (hrst : r.rlReset = some n) :
    fetchWithRetry net maxRetries initialDelay =
      ⟨.error (.rateLimit (1000 * n)),
        (List.range i).map (fun j => getBackoffDelay j initialDelay), i + 1⟩ := by
  unfold fetchWithRetry
  obtain ⟨le2, hgo⟩ := go_skip_failures net maxRetries initialDelay i maxRetries 0 none []
    (by omega) (by omega) (by omega) (fun j _ hj => hfail j hj)
  rw [hgo]
  obtain ⟨k, hk⟩ : ∃ k, maxRetries - (i - 0) = k + 1 := ⟨maxRetries - i - 1, by omega⟩
  rw [hk, fetchWithRetryGo]
  unfold retryStep
  rw [hresp]
  dsimp only
  have hrl : isRateLimited r = true := by
    unfold isRateLimited
    rw [hst, hrem, hrst]
    simp
  rw [if_pos hrl]
  have hms : rlResetMs r = 1000 * n := by
    unfold rlResetMs
    rw [hrst]
    rfl
  rw [hms]
  simp [List.range_eq_range']

/-- C7 witness: a transport failure on attempt 0, then a rate-limited 403
on attempt 1 with 3 attempts still remaining: the error is raised after
exactly 2 calls with only the one backoff sleep that preceded it. -/
def c7net : Nat → AttemptOutcome String :=
  fun j => if j = 0 then .exn
    else .resp ⟨403, some "0", some 1700000000, none, none⟩

theorem c7_witness :
    fetchWithRetry c7net 5 1000 =
      ⟨.error (.rateLimit (1000 * 1700000000)), [1000], 2⟩ := by
  have h := c7_rate_limit_immediate c7net 5 1000 1 (by omega)
    (fun j hj => by
      match j, hj with
      | 0, _ => exact Or.inl rfl)
    ⟨403, some "0", some 1700000000, none, none⟩ rfl rfl rfl 1700000000 rfl
  have h2 : (List.range 1).map (fun j => getBackoffDelay j 1000) = [1000] := by decide
  rw [h2] at h
  exact h

/-! ## Claim C4 -/

/-- The three revalidation outcomes of the cached-with-ETag branch,
generic in the payload: transport failure degrades to the stale cached
value, an invalid payload raises the schema error, a rate limit
propagates. -/
theorem fetchCached_reval {α : Type} (net : Nat → AttemptOutcome α) (url : String)
    (cm : CacheMap α) (now : Nat) (entry : CacheEntry α) (e : String)
    (hlook : List.lookup url cm = some entry) (hetag : entry.etag = some e) :
    ((fetchWithRetry net DEFAULT_MAX_RETRIES DEFAULT_INITIAL_DELAY_MS).result =
        .error .transport →
      fetchCached net url true cm now = .ok (⟨entry.data, true, entry.etag⟩, cm)) ∧
    (∀ r : HttpResponse α,
      (fetchWithRetry net DEFAULT_MAX_RETRIES DEFAULT_INITIAL_DELAY_MS).result = .ok r →
      (r.status == 304) = false → r.body = none →
      fetchCached net url true cm now = .error .schemaValidation) ∧
    (∀ t, (fetchWithRetry net DEFAULT_MAX_RETRIES DEFAULT_INITIAL_DELAY_MS).result =
        .error (.rateLimit t) →
      fetchCached net url true cm now = .error (.rateLimit t)) := by
  refine ⟨?_, ?_, ?_⟩
  · intro hres
    unfold fetchCached
    rw [if_pos rfl, hlook]
    dsimp only
    rw [hetag]
    dsimp only
    rw [hres]
  · intro r hres h304 hbody
    unfold fetchCached
    rw [if_pos rfl, hlook]
    dsimp only
    rw [hetag]
    dsimp only
    rw [hres]
    dsimp only
    rw [if_neg (by rw [h304]; simp), hbody]
  · intro t hres
    unfold fetchCached
    rw [if_pos rfl, hlook]
    dsimp only
    rw [hetag]
    dsimp only
    rw [hres]

/-- C4: for both `fetchRegistry` and `fetchItem`, when a cache entry with
a stored ETag exists for the URL, a transport failure of the conditional
revalidation request returns the stale cached value (`cached:true`,
cache state untouched) instead of propagating; but a schema-validation
failure of the revalidation payload and a rate-limit failure raised
during revalidation always propagate, even though the stale cached value
is available. -/
theorem c4_stale_on_transport_only (url : String) (now : Nat)
    (cm : CacheMap RegPayload) (entry : CacheEntry RegPayload) (e : String)
    (hlook : List.lookup url cm = some entry) (hetag : entry.etag = some e)
    (cmI : CacheMap ItemPayload) (entryI : CacheEntry ItemPayload) (eI : String)
    (hlookI : List.lookup url cmI = some entryI) (hetagI : entryI.etag = some eI) :
    ((∀ net, (fetchWithRetry net DEFAULT_MAX_RETRIES DEFAULT_INITIAL_DELAY_MS).result =
        .error .transport →
      fetchRegistry net url true cm now = .ok (⟨entry.data, true, entry.etag⟩, cm)) ∧
     (∀ net (r : HttpResponse RegPayload),
        (fetchWithRetry net DEFAULT_MAX_RETRIES DEFAULT_INITIAL_DELAY_MS).result = .ok r →
        (r.status == 304) = false → r.body = none →
        fetchRegistry net url true cm now = .error .schemaValidation) ∧
     (∀ net t, (fetchWithRetry net DEFAULT_MAX_RETRIES DEFAULT_INITIAL_DELAY_MS).result =
        .error (.rateLimit t) →
      fetchRegistry net url true cm now = .error (.rateLimit t))) ∧
    ((∀ net, (fetchWithRetry net DEFAULT_MAX_RETRIES DEFAULT_INITIAL_DELAY_MS).result =
        .error .transport →
      fetchItem net url true cmI now = .ok (⟨entryI.data, true, entryI.etag⟩, cmI)) ∧
     (∀ net (r : HttpResponse ItemPayload),
        (fetchWithRetry net DEFAULT_MAX_RETRIES DEFAULT_INITIAL_DELAY_MS).result = .ok r →
        (r.status == 304) = false → r.body = none →
        fetchItem net url true cmI now = .error .schemaValidation) ∧
     (∀ net t, (fetchWithRetry net DEFAULT_MAX_RETRIES DEFAULT_INITIAL_DELAY_MS).result =
        .error (.rateLimit t) →
      fetchItem net url true cmI now = .error (.rateLimit t))) :=
  ⟨⟨fun net => (fetchCached_reval net url cm now entry e hlook hetag).1,
    fun net => (fetchCached_reval net url cm now entry e hlook hetag).2.1,
    fun net => (fetchCached_reval net url cm now entry e hlook hetag).2.2⟩,
   ⟨fun net => (fetchCached_reval net url cmI now entryI eI hlookI hetagI).1,
    fun net => (fetchCached_reval net url cmI now entryI eI hlookI hetagI).2.1,
    fun net => (fetchCached_reval net url cmI now entryI eI hlookI hetagI).2.2⟩⟩

/-- C4 witness: with a cached-and-ETagged registry entry and item entry,
a run whose every attempt raises a transport exception serves the stale
value; a revalidation response with an invalid payload raises the schema
error; and a rate-limited 403 revalidation propagates the rate-limit
error. -/
def c4url : String := "https://r.example/registry.json"

def c4cm : CacheMap RegPayload := [(c4url, ⟨"cached-data", some "W/\"x\"", 0⟩)]

def c4cmI : CacheMap ItemPayload := [(c4url, ⟨"cached-item", some "W/\"y\"", 0⟩)]

theorem c4_witness :
    fetchRegistry (fun _ => .exn) c4url true c4cm 7 =
      .ok (⟨"cached-data", true, some "W/\"x\""⟩, c4cm) ∧
    fetchRegistry (fun _ => .resp ⟨200, none, none, none, none⟩) c4url true c4cm 7 =
      .error .schemaValidation ∧
    fetchRegistry (fun _ => .resp ⟨403, some "0", some 5, none, none⟩) c4url true c4cm 7 =
      .error (.rateLimit 5000) ∧
    fetchItem (fun _ => .exn) c4url true c4cmI 7 =
      .ok (⟨"cached-item", true, some "W/\"y\""⟩, c4cmI) ∧
    fetchItem (fun _ => .resp ⟨200, none, none, none, none⟩) c4url true c4cmI 7 =
      .error .schemaValidation ∧
    fetchItem (fun _ => .resp ⟨403, some "0", some 5, none, none⟩) c4url true c4cmI 7 =
      .error (.rateLimit 5000) := by
  have h := c4_stale_on_transport_only c4url 7
    c4cm ⟨"cached-data", some "W/\"x\"", 0⟩ "W/\"x\"" (by decide) rfl
    c4cmI ⟨"cached-item", some "W/\"y\"", 0⟩ "W/\"y\"" (by decide) rfl
  exact ⟨h.1.1 _ (by decide),
    h.1.2.1 _ ⟨200, none, none, none, none⟩ (by decide) (by decide) rfl,
    h.1.2.2 _ 5000 (by decide),
    h.2.1 _ (by decide),
    h.2.2.1 _ ⟨200, none, none, none, none⟩ (by decide) (by decide) rfl,
    h.2.2.2 _ 5000 (by decide)⟩

/-! ## Claim C8 -/

/-- The cache round trip, generic in the payload: a fresh 2xx fetch with
a valid payload caches it (returning `cached:false`); afterwards, if the
response carried an ETag, a conditional re-fetch answered with a 304
returns the previously cached payload (`cached:true`) untouched — the
304 response's body is never consulted; and if it carried no ETag, the
second call returns the cached payload directly. -/
theorem fetchCached_roundtrip {α : Type} (net₁ : Nat → AttemptOutcome α) (url : String)
    (now₁ : Nat) (r₁ : HttpResponse α) (d : α)
    (h1 : (fetchWithRetry net₁ DEFAULT_MAX_RETRIES DEFAULT_INITIAL_DELAY_MS).result = .ok r₁)
    (hok : 200 ≤ r₁.status ∧ r₁.status < 300)
    (hbody : r₁.body = some d) :
    fetchCached net₁ url true [] now₁ =
      .ok (⟨d, false, r₁.etag⟩, [(url, ⟨d, r₁.etag, now₁⟩)]) ∧
    (∀ (e : String) (net₂ : Nat → AttemptOutcome α) (r₂ : HttpResponse α) (now₂ : Nat),
      r₁.etag = some e →
      (fetchWithRetry net₂ DEFAULT_MAX_RETRIES DEFAULT_INITIAL_DELAY_MS).result = .ok r₂ →
      r₂.status = 304 →
      fetchCached net₂ url true [(url, ⟨d, r₁.etag, now₁⟩)] now₂ =
        .ok (⟨d, true, r₁.etag⟩, [(url, ⟨d, r₁.etag, now₁⟩)])) ∧
    (r₁.etag = none → ∀ (net₂ : Nat → AttemptOutcome α) (now₂ : Nat),
      fetchCached net₂ url true [(url, ⟨d, r₁.etag, now₁⟩)] now₂ =
        .ok (⟨d, true, r₁.etag⟩, [(url, ⟨d, r₁.etag, now₁⟩)])) := by
  refine ⟨?_, ?_, ?_⟩
  · unfold fetchCached fetchFresh
    rw [if_pos rfl]
    rw [show List.lookup url ([] : CacheMap α) = none from rfl]
    dsimp only
    rw [h1]
    dsimp only
    have hcond : (decide (200 ≤ r₁.status) && decide (r₁.status < 300)) = true := by
      rw [decide_eq_true hok.1, decide_eq_true hok.2]
      rfl
    rw [if_pos hcond, hbody]
    dsimp only
    rw [if_pos rfl]
    unfold setEntry
    rw [show List.lookup url ([] : CacheMap α) = none from rfl]
    rfl
  · intro e net₂ r₂ now₂ hetag h2 h304
    unfold fetchCached
    rw [if_pos rfl]
    rw [show List.lookup url [(url, (⟨d, r₁.etag, now₁⟩ : CacheEntry α))] =
      some ⟨d, r₁.etag, now₁⟩ from by simp [List.lookup_cons]]
    dsimp only
    rw [hetag]
    dsimp only
    rw [h2]
    dsimp only
    rw [if_pos (by rw [h304]; rfl)]
  · intro hetag net₂ now₂
    unfold fetchCached
    rw [if_pos rfl]
    rw [show List.lookup url [(url, (⟨d, r₁.etag, now₁⟩ : CacheEntry α))] =
      some ⟨d, r₁.etag, now₁⟩ from by simp [List.lookup_cons]]
    dsimp only
    rw [hetag]

/-- C8: for both `fetchRegistry` and `fetchItem`, fetching the same URL
twice with caching enabled and no upstream change gives, on the second
call, `cached:true` with data equal to the first call's data: with an
ETag stored, the conditional re-fetch's 304 returns the cached payload
unchanged without re-parsing (the 304's body is never consulted); with no
ETag stored, the cached payload is returned directly. -/
theorem c8_cache_roundtrip (url : String) (now₁ : Nat)
    (net₁ : Nat → AttemptOutcome RegPayload) (r₁ : HttpResponse RegPayload) (d : RegPayload)
    (h1 : (fetchWithRetry net₁ DEFAULT_MAX_RETRIES DEFAULT_INITIAL_DELAY_MS).result = .ok r₁)
    (hok : 200 ≤ r₁.status ∧ r₁.status < 300) (hbody : r₁.body = some d)
    (net₁I : Nat → AttemptOutcome ItemPayload) (r₁I : HttpResponse ItemPayload) (dI : ItemPayload)
    (h1I : (fetchWithRetry net₁I DEFAULT_MAX_RETRIES DEFAULT_INITIAL_DELAY_MS).result = .ok r₁I)
    (hokI : 200 ≤ r₁I.status ∧ r₁I.status < 300) (hbodyI : r₁I.body = some dI) :
    (fetchRegistry net₁ url true [] now₁ =
      .ok (⟨d, false, r₁.etag⟩, [(url, ⟨d, r₁.etag, now₁⟩)]) ∧
     (∀ (e : String) net₂ (r₂ : HttpResponse RegPayload) (now₂ : Nat),
       r₁.etag = some e →
       (fetchWithRetry net₂ DEFAULT_MAX_RETRIES DEFAULT_INITIAL_DELAY_MS).result = .ok r₂ →
       r₂.status = 304 →
       fetchRegistry net₂ url true [(url, ⟨d, r₁.etag, now₁⟩)] now₂ =
         .ok (⟨d, true, r₁.etag⟩, [(url, ⟨d, r₁.etag, now₁⟩)])) ∧
     (r₁.etag = none → ∀ net₂ (now₂ : Nat),
       fetchRegistry net₂ url true [(url, ⟨d, r₁.etag, now₁⟩)] now₂ =
         .ok (⟨d, true, r₁.etag⟩, [(url, ⟨d, r₁.etag, now₁⟩)]))) ∧
    (fetchItem net₁I url true [] now₁ =
      .ok (⟨dI, false, r₁I.etag⟩, [(url, ⟨dI, r₁I.etag, now₁⟩)]) ∧
     (∀ (e : String) net₂ (r₂ : HttpResponse ItemPayload) (now₂ : Nat),
       r₁I.etag = some e →
       (fetchWithRetry net₂ DEFAULT_MAX_RETRIES DEFAULT_INITIAL_DELAY_MS).result = .ok r₂ →
       r₂.status = 304 →
       fetchItem net₂ url true [(url, ⟨dI, r₁I.etag, now₁⟩)] now₂ =
         .ok (⟨dI, true, r₁I.etag⟩, [(url, ⟨dI, r₁I.etag, now₁⟩)])) ∧
     (r₁I.etag = none → ∀ net₂ (now₂ : Nat),
       fetchItem net₂ url true [(url, ⟨dI, r₁I.etag, now₁⟩)] now₂ =
         .ok (⟨dI, true, r₁I.etag⟩, [(url, ⟨dI, r₁I.etag, now₁⟩)]))) :=
  ⟨fetchCached_roundtrip net₁ url now₁ r₁ d h1 hok hbody,
   fetchCached_roundtrip net₁I url now₁ r₁I dI h1I hokI hbodyI⟩

/-- C8 witness: a 200 with payload and ETag `W/"v1"`, then a 304 whose
body is unparseable (`none`) — the second call still returns the first
payload with `cached:true`. -/
theorem c8_witness :
    fetchRegistry (fun _ => .resp ⟨200, none, none, some "W/\"v1\"", some "DATA"⟩)
      "https://r.example/registry.json" true [] 1 =
      .ok (⟨"DATA", false, some "W/\"v1\""⟩,
        [("https://r.example/registry.json", ⟨"DATA", some "W/\"v1\"", 1⟩)]) ∧
    fetchRegistry (fun _ => .resp ⟨304, none, none, none, none⟩)
      "https://r.example/registry.json" true
      [("https://r.example/registry.json", ⟨"DATA", some "W/\"v1\"", 1⟩)] 2 =
      .ok (⟨"DATA", true, some "W/\"v1\""⟩,
        [("https://r.example/registry.json", ⟨"DATA", some "W/\"v1\"", 1⟩)]) := by
  have h := c8_cache_roundtrip "https://r.example/registry.json" 1
    (fun _ => .resp ⟨200, none, none, some "W/\"v1\"", some "DATA"⟩)
    ⟨200, none, none, some "W/\"v1\"", some "DATA"⟩ "DATA" (by decide) (by decide) rfl
    (fun _ => .resp ⟨200, none, none, some "W/\"v1\"", some "DATA"⟩)
    ⟨200, none, none, some "W/\"v1\"", some "DATA"⟩ "DATA" (by decide) (by decide) rfl
  exact ⟨h.1.1, h.1.2.1 "W/\"v1\"" _ ⟨304, none, none, none, none⟩ 2 rfl (by decide) rfl⟩

/-! ## Catalog Locator (resolver.ts: findInAllRegistries / fetchFromRegistry) -/

/-- Outcome of a `fetchRegistry`/`fetchItem` call as the locator observes
it: success, `RegistryFetchError` (network failure or HTTP error status,
404 included), `SchemaValidationError`, or `GitHubRateLimitError`. -/
inductive FetchOutcome (α : Type) where
  | ok (data : α)
  | fetchError
  | schemaError
  | rateLimited
  deriving Repr, DecidableEq

/-- A catalog index payload: its `items` array. -/
structure RegistryIndex where
  items : List RegistryItem
  deriving Repr, DecidableEq

/-- The locator's view of the network: the outcome of fetching the
registry index at a URL, and of fetching an individual item URL. -/
structure LocEnv where
  regAt : String → FetchOutcome RegistryIndex
  itemAt : String → FetchOutcome RegistryItem

/-- The errors `fetchFromRegistry` rethrows (everything that is not a
`RegistryFetchError`). -/
inductive LocError where
  | schemaValidation
  | rateLimited
  deriving Repr, DecidableEq

/-- The ordered registries map of the configuration: `(name, url)` pairs
in declaration order.  Authenticated entries additionally carry headers,
which are forwarded to the fetch and do not influence the locator's
control flow; they are omitted. -/
abbrev RegistriesConfig := List (String × String)

/-- The opening-brace and closing-brace characters of the template
placeholder, by code point. -/
def lbrace : Char := Char.ofNat 123

def rbrace : Char := Char.ofNat 125

/-- Modelled from the spec: `substituteUrlTemplate` lives in
`url-parser.ts`, which is not among the sources; §4.1: replaces every
occurrence of the literal name placeholder (an open brace, the word
`name`, a close brace) in the URL, returning the URL unchanged when no
placeholder occurs.  Implemented structurally on the character list. -/
def substituteTemplateChars (nm : List Char) : List Char → List Char
  | c1 :: c2 :: c3 :: c4 :: c5 :: c6 :: rest =>
    if c1 = lbrace ∧ c2 = 'n' ∧ c3 = 'a' ∧ c4 = 'm' ∧ c5 = 'e' ∧ c6 = rbrace then
      nm ++ substituteTemplateChars nm rest
    else c1 :: substituteTemplateChars nm (c2 :: c3 :: c4 :: c5 :: c6 :: rest)
  | c :: rest => c :: substituteTemplateChars nm rest
  | [] => []

def substituteUrlTemplate (url componentName : String) : String :=
  String.mk (substituteTemplateChars componentName.data url.data)

/-- Splits a character list at its first slash. -/
def splitFirstSlash : List Char → Option (List Char × List Char)
  | [] => none
  | c :: cs =>
    if c = '/' then some ([], cs)
    else
      match splitFirstSlash cs with
      | some (l, r) => some (c :: l, r)
      | none => none

/-- Modelled from the spec: `parseNamespacedReference` lives in
`url-parser.ts`, which is not among the sources; §4.1: recognises the
at-sign namespace pattern (an `@`, a nonempty catalog name, a slash, a
nonempty item name) purely by string shape. -/
def parseNamespacedReference (ref : String) : Option (String × String) :=
  match ref.data with
  | '@' :: rest =>
    match splitFirstSlash rest with
    | some (ns, nm) =>
      if ns ≠ [] ∧ nm ≠ [] then some (String.mk ns, String.mk nm) else none
    | none => none
  | _ => none

/-- Modelled from the spec: `buildItemUrl` lives in `url-parser.ts`, which
is not among the sources; §4.1/§6: derive the per-item URL by stripping a
trailing index filename (`registry.json`) from the catalog URL and
appending the conventional `<name>.json` item path. -/
def buildItemUrl (registryUrl componentName : String) : String :=
  let idx : List Char := "registry.json".data
  let base : List Char :=
    if idx.isSuffixOf registryUrl.data then
      registryUrl.data.take (registryUrl.data.length - idx.length)
    else registryUrl.data ++ ['/']
  String.mk (base ++ componentName.data ++ ".json".data)

/-- `RegistryMatch` from resolver.ts. -/
structure RegistryMatch where
  registryName : String
  registryUrl : String
  item : RegistryItem
  deriving Repr, DecidableEq

/-- `fetchFromRegistry` from resolver.ts (lines 159-184): fetch the
catalog index and search its `items` array by name; on a miss, fetch the
conventional per-item URL.  The catch returns `null` ("component not
found in this registry") only for `RegistryFetchError`; schema-validation
and rate-limit errors are rethrown. -/
def fetchFromRegistry (env : LocEnv) (componentName registryUrl : String) :
    Except LocError (Option ResolvedItem) :=
  match env.regAt registryUrl with
  | .ok reg =>
    match reg.items.find? (fun i => i.name == componentName) with
    | some item => .ok (some ⟨componentName, item, registryUrl⟩)
    | none =>
      match env.itemAt (buildItemUrl registryUrl componentName) with
      | .ok item => .ok (some ⟨componentName, item, registryUrl⟩)
      | .fetchError => .ok none
      | .schemaError => .error .schemaValidation
      | .rateLimited => .error .rateLimited
  | .fetchError => .ok none
  | .schemaError => .error .schemaValidation
  | .rateLimited => .error .rateLimited

/-- `findInAllRegistries` from resolver.ts (lines 105-154): a namespaced
reference searches only the addressed catalog; a plain name walks every
configured catalog in declaration order (substituting the URL template)
and collects every match. -/
def findInAllRegistries (env : LocEnv) (componentName : String)
    (registries : RegistriesConfig) : Except LocError (List RegistryMatch) :=
  match parseNamespacedReference componentName with
  | some (ns, nm) =>
    match registries.lookup ns with
    | none => .ok []
    | some url =>
      match fetchFromRegistry env nm url with
      | .error e => .error e
      | .ok none => .ok []
      | .ok (some r) => .ok [⟨ns, url, r.item⟩]
  | none =>
    registries.foldlM
      (fun found rc =>
        match fetchFromRegistry env componentName
            (substituteUrlTemplate rc.2 componentName) with
        | .error e => .error e
        | .ok none => .ok found
        | .ok (some r) =>
          .ok (found ++ [⟨rc.1, substituteUrlTemplate rc.2 componentName, r.item⟩]))
      []

/-! ## Claim C5 -/

/-- C5 (amended): a plain (non-namespaced) name is looked up in every
configured catalog in declaration order without short-circuiting on the
first hit, collecting all matches in order; a `RegistryFetchError` for
one catalog — a network failure or an HTTP error status such as 404 —
yields no match for that catalog and the search continues.  (But, against
the frozen claim, a schema-validation or rate-limit failure for one
catalog propagates and aborts the search of the remaining catalogs — see
the counterexample.) -/
theorem c5_search_all_catalogs (env : LocEnv) (componentName : String)
    (registries : RegistriesConfig)
    (hplain : parseNamespacedReference componentName = none)
    (hok : ∀ rc ∈ registries, ∃ o, fetchFromRegistry env componentName
      (substituteUrlTemplate rc.2 componentName) = .ok o) :
    (findInAllRegistries env componentName registries = .ok (registries.filterMap
      (fun rc =>
        match fetchFromRegistry env componentName
            (substituteUrlTemplate rc.2 componentName) with
        | .ok (some r) => some ⟨rc.1, substituteUrlTemplate rc.2 componentName, r.item⟩
        | _ => none))) ∧
    (∀ u, env.regAt u = .fetchError →
      fetchFromRegistry env componentName u = .ok none) := by
  constructor
  · unfold findInAllRegistries
    rw [hplain]
    dsimp only
    have main : ∀ (rs : RegistriesConfig) (acc : List RegistryMatch),
        (∀ rc ∈ rs, ∃ o, fetchFromRegistry env componentName
          (substituteUrlTemplate rc.2 componentName) = .ok o) →
        (rs.foldlM
          (fun found rc =>
            match fetchFromRegistry env componentName
                (substituteUrlTemplate rc.2 componentName) with
            | .error e => .error e
            | .ok none => .ok found
            | .ok (some r) =>
              .ok (found ++ [⟨rc.1, substituteUrlTemplate rc.2 componentName, r.item⟩]))
          acc : Except LocError (List RegistryMatch)) =
        .ok (acc ++ rs.filterMap (fun rc =>
          match fetchFromRegistry env componentName
              (substituteUrlTemplate rc.2 componentName) with
          | .ok (some r) => some ⟨rc.1, substituteUrlTemplate rc.2 componentName, r.item⟩
          | _ => none)) := by
      intro rs
      induction rs with
      | nil =>
        intro acc _
        rw [List.foldlM_nil]
        simp only [List.filterMap_nil, List.append_nil]
        rfl
      | cons rc rs ih =>
        intro acc h
        rw [List.foldlM_cons]
        obtain ⟨o, ho⟩ := h rc (List.mem_cons_self _ _)
        rw [ho]
        cases o with
        | none =>
          dsimp only
          rw [except_bind_ok, ih acc (fun x hx => h x (List.mem_cons_of_mem _ hx)),
            List.filterMap_cons_none (by rw [ho])]
        | some r =>
          dsimp only
          rw [except_bind_ok,
            ih _ (fun x hx => h x (List.mem_cons_of_mem _ hx)),
            List.filterMap_cons_some (by rw [ho])]
          simp
    exact main registries [] hok
  · intro u hu
    unfold fetchFromRegistry
    rw [hu]

/-- C5 witness environment: catalog A contains `x`, catalog B's index
fetch fails with a `RegistryFetchError` (as does its per-item fallback),
catalog C contains `x` as well. -/
def c5witEnv : LocEnv where
  regAt := fun u =>
    if u = "https://a.example/registry.json" then .ok ⟨[⟨"x", []⟩, ⟨"y", []⟩]⟩
    else if u = "https://c.example/registry.json" then .ok ⟨[⟨"x", []⟩]⟩
    else .fetchError
  itemAt := fun _ => .fetchError

/-- C5 witness: the plain name `x` is searched in all three catalogs in
order; B's fetch failure does not abort the search, and both A's and C's
matches are collected. -/
theorem c5_witness :
    (findInAllRegistries c5witEnv "x"
      [("A", "https://a.example/registry.json"), ("B", "https://b.example/registry.json"),
       ("C", "https://c.example/registry.json")] =
      .ok [⟨"A", "https://a.example/registry.json", ⟨"x", []⟩⟩,
           ⟨"C", "https://c.example/registry.json", ⟨"x", []⟩⟩]) ∧
    (∀ u, c5witEnv.regAt u = .fetchError →
      fetchFromRegistry c5witEnv "x" u = .ok none) := by
  have hok : ∀ rc ∈ ([("A", "https://a.example/registry.json"),
      ("B", "https://b.example/registry.json"),
      ("C", "https://c.example/registry.json")] : RegistriesConfig),
      ∃ o, fetchFromRegistry c5witEnv "x" (substituteUrlTemplate rc.2 "x") = .ok o := by
    intro rc hrc
    fin_cases hrc
    · exact ⟨some ⟨"x", ⟨"x", []⟩, "https://a.example/registry.json"⟩, by decide⟩
    · exact ⟨none, by decide⟩
    · exact ⟨some ⟨"x", ⟨"x", []⟩, "https://c.example/registry.json"⟩, by decide⟩
  have h := c5_search_all_catalogs c5witEnv "x"
    [("A", "https://a.example/registry.json"), ("B", "https://b.example/registry.json"),
     ("C", "https://c.example/registry.json")]
    (by decide) hok
  refine ⟨?_, h.2⟩
  rw [h.1]
  decide

/-- C5 counterexample environment: catalog A's index fails schema
validation, catalog B contains `x`. -/
def c5cexEnv : LocEnv where
  regAt := fun u =>
    if u = "https://a.example/registry.json" then .schemaError
    else if u = "https://b.example/registry.json" then .ok ⟨[⟨"x", []⟩]⟩
    else .fetchError
  itemAt := fun _ => .fetchError

/-- C5 counterexample: `x` is a plain name, catalog B does contain it,
yet a schema-validation failure in catalog A aborts the whole search with
an error instead of being treated as "not found in that catalog". -/
theorem c5_counterexample :
    parseNamespacedReference "x" = none ∧
    c5cexEnv.regAt "https://b.example/registry.json" = .ok ⟨[⟨"x", []⟩]⟩ ∧
    findInAllRegistries c5cexEnv "x"
      [("A", "https://a.example/registry.json"), ("B", "https://b.example/registry.json")] =
      .error .schemaValidation :=
  ⟨by decide, by decide, by decide⟩

/-! ## Similarity Suggester (similarity.ts) -/

/-- The DP matrix of `levenshteinDistance` (similarity.ts lines 11-40):
`levMatrix a b i j` is `matrix[i][j]`, defined by the same base cases
(first column `i`, first row `j`) and recurrence (equal characters copy
the diagonal; otherwise one plus the minimum of substitution, insertion,
deletion) that the fill loop establishes. -/
def levMatrix (a b : List Char) : Nat → Nat → Nat
  | 0, j => j
  | i + 1, 0 => i + 1
  | i + 1, j + 1 =>
    if a.get? i = b.get? j then levMatrix a b i j
    else
      min (levMatrix a b i j + 1)
        (min (levMatrix a b (i + 1) j + 1) (levMatrix a b i (j + 1) + 1))
termination_by i j => (i, j)

/-- `levenshteinDistance` from similarity.ts: the bottom-right entry of
the DP matrix. -/
def levenshteinDistance (a b : String) : Nat :=
  levMatrix a.data b.data a.data.length b.data.length

/-- Models `String.prototype.toLowerCase` as per-character lowercasing.
Per-character lowercasing preserves the length. -/
def lowerStr (s : String) : String :=
  String.mk (s.data.map Char.toLower)

/-- `similarityScore` from similarity.ts: `maxLength` is taken from the
original strings, the distance from the lowercased ones; both strings
empty gives `1`, otherwise `1 - distance / maxLength`. -/
def similarityScore (a b : String) : ℚ :=
  let maxLength := max a.length b.length
  if maxLength = 0 then 1
  else 1 - (levenshteinDistance (lowerStr a) (lowerStr b) : ℚ) / (maxLength : ℚ)

/-- Every DP-matrix entry is bounded by the larger of its indices: the
edit distance of two prefixes never exceeds the longer prefix's length. -/
theorem levMatrix_le_max (a b : List Char) : ∀ i j, levMatrix a b i j ≤ max i j := by
  have H : ∀ n i j, i + j ≤ n → levMatrix a b i j ≤ max i j := by
    intro n
    induction n with
    | zero =>
      intro i j h
      obtain ⟨rfl, rfl⟩ : i = 0 ∧ j = 0 := by omega
      simp [levMatrix]
    | succ n ih =>
      intro i j h
      match i, j with
      | 0, j =>
        rw [levMatrix]
        exact Nat.le_max_right _ _
      | i + 1, 0 =>
        rw [levMatrix]
        exact Nat.le_max_left _ _
      | i + 1, j + 1 =>
        rw [levMatrix]
        split
        · calc levMatrix a b i j ≤ max i j := ih i j (by omega)
            _ ≤ max (i + 1) (j + 1) := by omega
        · calc min (levMatrix a b i j + 1)
                (min (levMatrix a b (i + 1) j + 1) (levMatrix a b i (j + 1) + 1))
              ≤ levMatrix a b i j + 1 := Nat.min_le_left _ _
            _ ≤ max i j + 1 := Nat.succ_le_succ (ih i j (by omega))
            _ ≤ max (i + 1) (j + 1) := by omega
  intro i j
  exact H (i + j) i j le_rfl

/-- The distance between two strings is at most the longer length. -/
theorem levenshteinDistance_le_max (a b : String) :
    levenshteinDistance a b ≤ max a.length b.length :=
  levMatrix_le_max a.data b.data a.data.length b.data.length

/-- Lowercasing preserves the length. -/
theorem lowerStr_length (s : String) : (lowerStr s).length = s.length := by
  show (s.data.map Char.toLower).length = s.data.length
  exact List.length_map _ _

/-- C9: the similarity score is computed case-insensitively as
`1 - levenshtein(lowercase a, lowercase b) / max(|a|, |b|)` — with the
lengths taken from the original strings and the value `1` when both are
empty — and it always lies in the closed interval `[0, 1]`. -/
theorem c9_similarity_bounds (a b : String) :
    (similarityScore a b = if max a.length b.length = 0 then 1
      else 1 - (levenshteinDistance (lowerStr a) (lowerStr b) : ℚ) /
        (max a.length b.length : ℚ)) ∧
    0 ≤ similarityScore a b ∧ similarityScore a b ≤ 1 := by
  refine ⟨by simp [similarityScore, Nat.cast_max], ?_⟩
  unfold similarityScore
  by_cases h : max a.length b.length = 0
  · rw [if_pos h]
    norm_num
  · rw [if_neg h, Nat.cast_max]
    have hm : (0 : ℚ) < max (a.length : ℚ) (b.length : ℚ) := by
      have h0 : 0 < max a.length b.length := Nat.pos_of_ne_zero h
      exact_mod_cast h0
    have hd : (levenshteinDistance (lowerStr a) (lowerStr b) : ℚ) ≤
        max (a.length : ℚ) (b.length : ℚ) := by
      have h1 : levenshteinDistance (lowerStr a) (lowerStr b) ≤
          max (lowerStr a).length (lowerStr b).length :=
        levenshteinDistance_le_max _ _
      rw [lowerStr_length, lowerStr_length] at h1
      exact_mod_cast h1
    have hd0 : (0 : ℚ) ≤ (levenshteinDistance (lowerStr a) (lowerStr b) : ℚ) := by
      exact_mod_cast Nat.zero_le _
    constructor
    · have hq : (levenshteinDistance (lowerStr a) (lowerStr b) : ℚ) /
          max (a.length : ℚ) (b.length : ℚ) ≤ 1 := by
        rw [div_le_one hm]
        exact hd
      linarith
    · have hq : 0 ≤ (levenshteinDistance (lowerStr a) (lowerStr b) : ℚ) /
          max (a.length : ℚ) (b.length : ℚ) := div_nonneg hd0 (le_of_lt hm)
      linarith

end Rum
